import Mathlib

/-!
# SimpleVector: a shallow embedding of `simple-vector/simple_vector.h`

The container `SimpleVector<Type>` is embedded as a record of its three data
members.  Heap blocks are lists of slots; a pointer (and so an iterator) into a
block is the offset of the slot it designates, `begin()` being offset `0` and
`end()` offset `size_`.

Every function that dereferences a pointer returns an `Option`: `none` stands
for behaviour the C++ program leaves undefined (an access outside the block, a
range whose end precedes its start) and for a failed `assert`.

Conventions fixed once for the whole development:

* `size_t` values are natural numbers.  `capacity_` counts slots of a block that
  was really allocated, so `capacity_ * 2` and `size_ + 1` stay below `2 ^ 64`
  on every reachable object; allocation is assumed to succeed.
* `Type()` is `default`, the element `operator==` is decidable equality.
* Moving an element is modelled as copying it: the slot moved from keeps its
  value.  No operation below reads a slot it has moved from before overwriting
  it or dropping it from the live range, with one exception: `Insert` and
  `PushBack` on an rvalue that refers to a slot of the container's own block.
  There the embedding shows what happens for element types whose move leaves the
  source as it was, and the theorems about the elements that the `&&` overloads
  leave in the container are stated for rvalues outside the block.
* An argument passed by reference (`const Type&`, `Type&&`) to `Insert` or
  `PushBack` is a `Ref`: it may designate a slot of the container's own block,
  and it is read at the point where the source reads it.
-/

namespace SimpleVec

/-! ## Raw storage -/

/-- Modelled from the spec: `array_ptr.h` is not among the sources.  The spec
describes the buffer as the exclusive owner of one contiguous block of exactly
the requested number of slots, with unchecked indexed access and a constant-time
swap, and no notion of logical length.  The block is the list of its slots. -/
structure ArrayPtr (α : Type) where
  /-- The slots of the owned block, in address order. -/
  raw_ptr_ : List α
deriving Repr, DecidableEq

/-- Modelled from the spec: `ArrayPtr(size_t size)` allocates exactly `size`
slots of raw storage.  The spec does not promise any initial content, so the
content of a fresh block is the parameter `junk` (slot `i` holds `junk i`). -/
def ArrayPtr.alloc {α : Type} (junk : Nat → α) (size : Nat) : ArrayPtr α :=
  ⟨(List.range size).map junk⟩

/-- Modelled from the spec: `ArrayPtr::swap` exchanges the owned blocks. -/
def ArrayPtr.swap {α : Type} (a b : ArrayPtr α) : ArrayPtr α × ArrayPtr α :=
  (b, a)

/-- The assignment `*(p + i) = x` into a block: undefined outside the block. -/
def store {α : Type} (blk : List α) (i : Nat) (x : α) : Option (List α) :=
  if i < blk.length then some (blk.set i x) else none

/-! ## The standard algorithms used by the container

Each algorithm is the element-by-element loop of the standard library.  The
loop counter is the distance `last - first`; a range with `last < first` is
undefined.  The variants named `_within` are the same loops for the case where
source and destination pointers point into one block, so that a write is seen
by later reads. -/

/-- Loop of `std::generate`: `for (; first != last; ++first) *first = g();`. -/
def generate_loop {α : Type} (g : Unit → α) : Nat → List α → Nat → Option (List α)
  | 0, blk, _ => some blk
  | n + 1, blk, first =>
    match store blk first (g ()) with
    | none => none
    | some blk1 => generate_loop g n blk1 (first + 1)

/-- Embedding of `std::generate(first, last, g)` on one block. -/
def std_generate {α : Type} (blk : List α) (first last : Nat) (g : Unit → α) :
    Option (List α) :=
  if first ≤ last then generate_loop g (last - first) blk first else none

/-- Loop of `std::copy` between two blocks:
`while (first != last) *d_first++ = *first++;`. -/
def copy_loop {α : Type} : Nat → List α → Nat → List α → Nat → Option (List α × Nat)
  | 0, _, _, dst, d_first => some (dst, d_first)
  | n + 1, src, first, dst, d_first =>
    match src[first]? with
    | none => none
    | some x =>
      match store dst d_first x with
      | none => none
      | some dst1 => copy_loop n src (first + 1) dst1 (d_first + 1)

/-- Embedding of `std::copy(first, last, d_first)` from block `src` into block
`dst`; returns the destination block and the iterator past the last slot written. -/
def std_copy {α : Type} (src : List α) (first last : Nat) (dst : List α) (d_first : Nat) :
    Option (List α × Nat) :=
  if first ≤ last then copy_loop (last - first) src first dst d_first else none

/-- Embedding of `std::move(first, last, d_first)` (the algorithm) between two
blocks: the loop of `std_copy` with move assignment. -/
def std_move {α : Type} (src : List α) (first last : Nat) (dst : List α) (d_first : Nat) :
    Option (List α × Nat) :=
  std_copy src first last dst d_first

/-- Loop of `std::copy` when source and destination lie in the same block. -/
def copy_loop_within {α : Type} : Nat → List α → Nat → Nat → Option (List α × Nat)
  | 0, blk, _, d_first => some (blk, d_first)
  | n + 1, blk, first, d_first =>
    match blk[first]? with
    | none => none
    | some x =>
      match store blk d_first x with
      | none => none
      | some blk1 => copy_loop_within n blk1 (first + 1) (d_first + 1)

/-- Embedding of `std::move(first, last, d_first)` inside one block. -/
def std_move_within {α : Type} (blk : List α) (first last d_first : Nat) :
    Option (List α × Nat) :=
  if first ≤ last then copy_loop_within (last - first) blk first d_first else none

/-- Loop of `std::copy_backward` between two blocks:
`while (first != last) *(--d_last) = *(--last);`. -/
def copy_backward_loop {α : Type} :
    Nat → List α → Nat → List α → Nat → Option (List α × Nat)
  | 0, _, _, dst, d_last => some (dst, d_last)
  | n + 1, src, last, dst, d_last =>
    if last = 0 ∨ d_last = 0 then none
    else
      match src[last - 1]? with
      | none => none
      | some x =>
        match store dst (d_last - 1) x with
        | none => none
        | some dst1 => copy_backward_loop n src (last - 1) dst1 (d_last - 1)

/-- Embedding of `std::copy_backward(first, last, d_last)` from block `src` into
block `dst`; returns the destination block and the iterator to the last slot
written. -/
def std_copy_backward {α : Type} (src : List α) (first last : Nat) (dst : List α)
    (d_last : Nat) : Option (List α × Nat) :=
  if first ≤ last then copy_backward_loop (last - first) src last dst d_last else none

/-- Embedding of `std::move_backward(first, last, d_last)` between two blocks. -/
def std_move_backward {α : Type} (src : List α) (first last : Nat) (dst : List α)
    (d_last : Nat) : Option (List α × Nat) :=
  std_copy_backward src first last dst d_last

/-- Loop of `std::copy_backward` when both ranges lie in the same block. -/
def copy_backward_loop_within {α : Type} : Nat → List α → Nat → Nat → Option (List α × Nat)
  | 0, blk, _, d_last => some (blk, d_last)
  | n + 1, blk, last, d_last =>
    if last = 0 ∨ d_last = 0 then none
    else
      match blk[last - 1]? with
      | none => none
      | some x =>
        match store blk (d_last - 1) x with
        | none => none
        | some blk1 => copy_backward_loop_within n blk1 (last - 1) (d_last - 1)

/-- Embedding of `std::copy_backward(first, last, d_last)` inside one block. -/
def std_copy_backward_within {α : Type} (blk : List α) (first last d_last : Nat) :
    Option (List α × Nat) :=
  if first ≤ last then copy_backward_loop_within (last - first) blk last d_last else none

/-- Embedding of `std::move_backward(first, last, d_last)` inside one block. -/
def std_move_backward_within {α : Type} (blk : List α) (first last d_last : Nat) :
    Option (List α × Nat) :=
  std_copy_backward_within blk first last d_last

/-- Loop of the three-iterator `std::equal`:
`for (; first1 != last1; ++first1, ++first2) if (!(*first1 == *first2)) return false;`
followed by `return true`.  It never looks at the length of the second range. -/
def equal_loop {α : Type} [DecidableEq α] : Nat → List α → Nat → List α → Nat → Option Bool
  | 0, _, _, _, _ => some true
  | n + 1, blk1, first1, blk2, first2 =>
    match blk1[first1]?, blk2[first2]? with
    | some x, some y =>
      if x = y then equal_loop n blk1 (first1 + 1) blk2 (first2 + 1) else some false
    | _, _ => none

/-- Embedding of `std::equal(first1, last1, first2)`. -/
def std_equal {α : Type} [DecidableEq α] (blk1 : List α) (first1 last1 : Nat)
    (blk2 : List α) (first2 : Nat) : Option Bool :=
  if first1 ≤ last1 then equal_loop (last1 - first1) blk1 first1 blk2 first2 else none

/-- Loop of `std::lexicographical_compare`:
`for (; first1 != last1 && first2 != last2; ++first1, ++first2)`
`{ if (*first1 < *first2) return true; if (*first2 < *first1) return false; }`
followed by `return first1 == last1 && first2 != last2`.  The two counters are
the distances `last1 - first1` and `last2 - first2`. -/
def lexicographical_compare_loop {α : Type} [LT α] [DecidableRel (fun a b : α => a < b)] :
    Nat → Nat → List α → Nat → List α → Nat → Option Bool
  | 0, n2, _, _, _, _ => some (decide (n2 ≠ 0))
  | _ + 1, 0, _, _, _, _ => some false
  | n1 + 1, n2 + 1, blk1, first1, blk2, first2 =>
    match blk1[first1]?, blk2[first2]? with
    | some x, some y =>
      if x < y then some true
      else if y < x then some false
      else lexicographical_compare_loop n1 n2 blk1 (first1 + 1) blk2 (first2 + 1)
    | _, _ => none

/-- Embedding of `std::lexicographical_compare(first1, last1, first2, last2)`. -/
def std_lexicographical_compare {α : Type} [LT α] [DecidableRel (fun a b : α => a < b)]
    (blk1 : List α) (first1 last1 : Nat) (blk2 : List α) (first2 last2 : Nat) :
    Option Bool :=
  if first1 ≤ last1 ∧ first2 ≤ last2 then
    lexicographical_compare_loop (last1 - first1) (last2 - first2) blk1 first1 blk2 first2
  else none

/-! ## The container -/

/-- Embedding of `class ReserveProxyObj`: it packages the capacity to reserve. -/
structure ReserveProxyObj where
  /-- The requested capacity. -/
  capacity_ : Nat
deriving Repr, DecidableEq

/-- Embedding of the free function `Reserve(size_t capacity_to_reserve)`. -/
def Reserve (capacity_to_reserve : Nat) : ReserveProxyObj :=
  ⟨capacity_to_reserve⟩

/-- Embedding of the data members of `SimpleVector<Type>`. -/
structure SimpleVector (α : Type) where
  /-- The owned block. -/
  arr_ptr_ : ArrayPtr α
  /-- The number of live elements. -/
  size_ : Nat
  /-- The number of allocated slots. -/
  capacity_ : Nat
deriving Repr, DecidableEq

/-- The exception thrown by the checked accessor. -/
inductive Exception where
  | out_of_range
deriving Repr, DecidableEq

/-- A reference argument (`const Type&` or `Type&&`) of a member function: it
designates either an object outside the block of the container the function is
called on, or the slot at an offset of that block, as in `v.Insert(pos, v[2])`. -/
inductive Ref (α : Type) where
  | object (x : α)
  | slot (k : Nat)
deriving Repr, DecidableEq

/-- Reading through a reference while the container owns the block `blk`:
undefined when the reference designates no slot of the block. -/
def Ref.read {α : Type} (blk : List α) : Ref α → Option α
  | .object x => some x
  | .slot k => blk[k]?

/-- The reference designates an object: any object outside the block, or one of
the `capacity_` slots of the block of `v`. -/
def Ref.valid {α : Type} (v : SimpleVector α) : Ref α → Bool
  | .object _ => true
  | .slot k => decide (k < v.capacity_)

namespace SimpleVector

variable {α : Type}

/-- Embedding of `SimpleVector() noexcept = default`: no block, size and capacity zero. -/
def ctor_default : SimpleVector α :=
  { arr_ptr_ := ⟨[]⟩, size_ := 0, capacity_ := 0 }

/-- Embedding of `GetSize()`. -/
def GetSize (v : SimpleVector α) : Nat := v.size_

/-- Embedding of `GetCapacity()`. -/
def GetCapacity (v : SimpleVector α) : Nat := v.capacity_

/-- Embedding of `IsEmpty()`. -/
def IsEmpty (v : SimpleVector α) : Bool := v.size_ == 0

/-- Embedding of `begin()`, as an offset into the owned block. -/
def begin_ (_v : SimpleVector α) : Nat := 0

/-- Embedding of `end()`, as an offset into the owned block. -/
def end_ (v : SimpleVector α) : Nat := v.begin_ + v.size_

/-- The sequence obtained by iterating from `begin()` to `end()`: the first
`size_` slots of the owned block. -/
def live (v : SimpleVector α) : List α := v.arr_ptr_.raw_ptr_.take v.size_

/-- Embedding of `void swap(SimpleVector& other)`; returns `*this` and `other`
after the call. -/
def swap (v other : SimpleVector α) : SimpleVector α × SimpleVector α :=
  let p := ArrayPtr.swap v.arr_ptr_ other.arr_ptr_
  ({ arr_ptr_ := p.1, size_ := other.size_, capacity_ := other.capacity_ },
   { arr_ptr_ := p.2, size_ := v.size_, capacity_ := v.capacity_ })

/-- Embedding of `explicit SimpleVector(size_t size)`. -/
def ctor_size [Inhabited α] (junk : Nat → α) (size : Nat) : Option (SimpleVector α) :=
  let v : SimpleVector α :=
    { arr_ptr_ := ArrayPtr.alloc junk size, size_ := size, capacity_ := size }
  match std_generate v.arr_ptr_.raw_ptr_ v.begin_ v.end_ (fun _ => default) with
  | none => none
  | some blk => some { v with arr_ptr_ := ⟨blk⟩ }

/-- Embedding of `SimpleVector(size_t size, const Type& value)`.  The generator
applies `std::move` to a `const` reference, which selects the copy constructor. -/
def ctor_size_value [Inhabited α] (junk : Nat → α) (size : Nat) (value : α) :
    Option (SimpleVector α) :=
  match ctor_size junk size with
  | none => none
  | some v =>
    match std_generate v.arr_ptr_.raw_ptr_ v.begin_ v.end_ (fun _ => value) with
    | none => none
    | some blk => some { v with arr_ptr_ := ⟨blk⟩ }

/-- Embedding of `SimpleVector(std::initializer_list<Type> init)`. -/
def ctor_init [Inhabited α] (junk : Nat → α) (init : List α) : Option (SimpleVector α) :=
  match ctor_size junk init.length with
  | none => none
  | some v =>
    match std_copy init 0 init.length v.arr_ptr_.raw_ptr_ v.begin_ with
    | none => none
    | some r => some { v with arr_ptr_ := ⟨r.1⟩ }

/-- Embedding of `SimpleVector(const SimpleVector& other)`. -/
def ctor_copy (junk : Nat → α) (other : SimpleVector α) : Option (SimpleVector α) :=
  let v : SimpleVector α :=
    { arr_ptr_ := ArrayPtr.alloc junk other.GetCapacity,
      size_ := other.GetSize, capacity_ := other.GetCapacity }
  match std_copy other.arr_ptr_.raw_ptr_ other.begin_ other.end_
      v.arr_ptr_.raw_ptr_ v.begin_ with
  | none => none
  | some r => some { v with arr_ptr_ := ⟨r.1⟩ }

/-- Embedding of `void Clear() noexcept`. -/
def Clear (v : SimpleVector α) : SimpleVector α :=
  { v with size_ := 0 }

/-- Embedding of `SimpleVector(SimpleVector&& other)`; returns the constructed
container and `other` after the call. -/
def ctor_move (junk : Nat → α) (other : SimpleVector α) :
    Option (SimpleVector α × SimpleVector α) :=
  let v : SimpleVector α :=
    { arr_ptr_ := ArrayPtr.alloc junk other.GetCapacity,
      size_ := other.GetSize, capacity_ := other.GetCapacity }
  match std_move other.arr_ptr_.raw_ptr_ other.begin_ other.end_
      v.arr_ptr_.raw_ptr_ v.begin_ with
  | none => none
  | some r => some ({ v with arr_ptr_ := ⟨r.1⟩ }, other.Clear)

/-- Embedding of `SimpleVector(ReserveProxyObj obj)`. -/
def ctor_reserve (junk : Nat → α) (obj : ReserveProxyObj) : SimpleVector α :=
  { arr_ptr_ := ArrayPtr.alloc junk obj.capacity_, size_ := 0, capacity_ := obj.capacity_ }

/-- Embedding of `operator=(const SimpleVector& other)`.  The flag `same` is the
outcome of the address test `this == &other`; when it is set `other` is `*this`.
Returns `*this` and `other` after the call. -/
def assign_copy (junk : Nat → α) (v other : SimpleVector α) (same : Bool) :
    Option (SimpleVector α × SimpleVector α) :=
  if same then some (v, v)
  else
    match ctor_copy junk other with
    | none => none
    | some tmp => some ((v.swap tmp).1, other)

/-- Embedding of `operator=(SimpleVector&& other)`.  The flag `same` is the
outcome of the address test `this == &other`; when it is set `other` is `*this`.
Returns `*this` and `other` after the call. -/
def assign_move (junk : Nat → α) (v other : SimpleVector α) (same : Bool) :
    Option (SimpleVector α × SimpleVector α) :=
  if same then some (v, v)
  else
    match ctor_move junk other with
    | none => none
    | some r => some ((v.swap r.1).1, r.2)

/-- Embedding of `Iterator Insert(ConstIterator pos, const Type& value)`; returns
the container after the call and the returned iterator, an offset into the block
the container owns after the call.  The reference `value` is read where the
source reads it: in the in-place branch after `std::copy_backward` has shifted
the tail, in the reallocating branch while the container still owns its old
block. -/
def Insert [Inhabited α] (junk : Nat → α) (v : SimpleVector α) (pos : Nat) (value : Ref α) :
    Option (SimpleVector α × Nat) :=
  if v.begin_ ≤ pos ∧ pos ≤ v.end_ then
    let it_to_insert := pos
    if v.size_ ≠ v.capacity_ then
      match std_copy_backward_within v.arr_ptr_.raw_ptr_ it_to_insert v.end_ (v.end_ + 1) with
      | none => none
      | some r =>
        if r.2 = 0 then none
        else
          let it_to_return := r.2 - 1
          match value.read r.1 with
          | none => none
          | some x =>
            match store r.1 it_to_return x with
            | none => none
            | some blk =>
              some ({ v with arr_ptr_ := ⟨blk⟩, size_ := v.size_ + 1 }, it_to_return)
    else
      let new_cap := if v.capacity_ = 0 then 1 else v.capacity_ * 2
      match ctor_size junk new_cap with
      | none => none
      | some tmp0 =>
        let tmp : SimpleVector α := { tmp0 with size_ := v.size_ + 1 }
        match std_copy v.arr_ptr_.raw_ptr_ v.begin_ it_to_insert
            tmp.arr_ptr_.raw_ptr_ tmp.begin_ with
        | none => none
        | some r =>
          let it_to_return := r.2
          match value.read v.arr_ptr_.raw_ptr_ with
          | none => none
          | some x =>
            match store r.1 it_to_return x with
            | none => none
            | some blk =>
              match std_copy_backward v.arr_ptr_.raw_ptr_ it_to_insert v.end_ blk tmp.end_ with
              | none => none
              | some r2 =>
                some ((v.swap { tmp with arr_ptr_ := ⟨r2.1⟩ }).1, it_to_return)
  else none

/-- Embedding of `Iterator Insert(ConstIterator pos, Type&& value)`: the same
steps with the moving algorithms; `value` is read, as in the source, after
`std::move_backward` in the in-place branch. -/
def Insert_rv [Inhabited α] (junk : Nat → α) (v : SimpleVector α) (pos : Nat)
    (value : Ref α) : Option (SimpleVector α × Nat) :=
  if v.begin_ ≤ pos ∧ pos ≤ v.end_ then
    let it_to_insert := pos
    if v.size_ ≠ v.capacity_ then
      match std_move_backward_within v.arr_ptr_.raw_ptr_ it_to_insert v.end_ (v.end_ + 1) with
      | none => none
      | some r =>
        if r.2 = 0 then none
        else
          let it_to_return := r.2 - 1
          match value.read r.1 with
          | none => none
          | some x =>
            match store r.1 it_to_return x with
            | none => none
            | some blk =>
              some ({ v with arr_ptr_ := ⟨blk⟩, size_ := v.size_ + 1 }, it_to_return)
    else
      let new_cap := if v.capacity_ = 0 then 1 else v.capacity_ * 2
      match ctor_size junk new_cap with
      | none => none
      | some tmp0 =>
        let tmp : SimpleVector α := { tmp0 with size_ := v.size_ + 1 }
        match std_move v.arr_ptr_.raw_ptr_ v.begin_ it_to_insert
            tmp.arr_ptr_.raw_ptr_ tmp.begin_ with
        | none => none
        | some r =>
          let it_to_return := r.2
          match value.read v.arr_ptr_.raw_ptr_ with
          | none => none
          | some x =>
            match store r.1 it_to_return x with
            | none => none
            | some blk =>
              match std_move_backward v.arr_ptr_.raw_ptr_ it_to_insert v.end_ blk tmp.end_ with
              | none => none
              | some r2 =>
                some ((v.swap { tmp with arr_ptr_ := ⟨r2.1⟩ }).1, it_to_return)
  else none

/-- Embedding of `void PushBack(const Type& value)`. -/
def PushBack [Inhabited α] (junk : Nat → α) (v : SimpleVector α) (value : Ref α) :
    Option (SimpleVector α) :=
  (Insert junk v v.end_ value).map Prod.fst

/-- Embedding of `void PushBack(Type&& value)`. -/
def PushBack_rv [Inhabited α] (junk : Nat → α) (v : SimpleVector α) (value : Ref α) :
    Option (SimpleVector α) :=
  (Insert_rv junk v v.end_ value).map Prod.fst

/-- Embedding of `void PopBack() noexcept`. -/
def PopBack (v : SimpleVector α) : Option (SimpleVector α) :=
  if v.IsEmpty then none else some { v with size_ := v.size_ - 1 }

/-- Embedding of `Iterator Erase(ConstIterator pos)`; returns the container after
the call and the returned iterator. -/
def Erase (v : SimpleVector α) (pos : Nat) : Option (SimpleVector α × Nat) :=
  if v.begin_ ≤ pos ∧ pos ≤ v.end_ ∧ ¬ v.IsEmpty then
    let it_to_erase := pos
    match std_move_within v.arr_ptr_.raw_ptr_ (it_to_erase + 1) v.end_ it_to_erase with
    | none => none
    | some r => some ({ v with arr_ptr_ := ⟨r.1⟩, size_ := v.size_ - 1 }, it_to_erase)
  else none

/-- Embedding of `void Reserve(size_t new_capacity)`. -/
def Reserve [Inhabited α] (junk : Nat → α) (v : SimpleVector α) (new_capacity : Nat) :
    Option (SimpleVector α) :=
  if new_capacity ≤ v.capacity_ then some v
  else
    match ctor_size junk new_capacity with
    | none => none
    | some tmp0 =>
      let tmp : SimpleVector α := { tmp0 with size_ := v.size_ }
      match std_move v.arr_ptr_.raw_ptr_ v.begin_ v.end_ tmp.arr_ptr_.raw_ptr_ tmp.begin_ with
      | none => none
      | some r => some (v.swap { tmp with arr_ptr_ := ⟨r.1⟩ }).1

/-- Embedding of `operator[](size_t index)`. -/
def operator_index (v : SimpleVector α) (index : Nat) : Option α :=
  if index < v.size_ then v.arr_ptr_.raw_ptr_[index]? else none

/-- Embedding of `const Type& At(size_t index) const`: the outer `Option` is
`none` for an access outside the block, the inner result is the exception or the
element referred to. -/
def At_const (v : SimpleVector α) (index : Nat) : Option (Except Exception α) :=
  if index ≥ v.size_ then some (.error .out_of_range)
  else
    match v.arr_ptr_.raw_ptr_[index]? with
    | none => none
    | some x => some (.ok x)

/-- Embedding of `Type& At(size_t index)`, the overload on a mutable container;
returns the container after the call with the outcome. -/
def At (v : SimpleVector α) (index : Nat) : Option (SimpleVector α × Except Exception α) :=
  if index ≥ v.size_ then some (v, .error .out_of_range)
  else
    match v.arr_ptr_.raw_ptr_[index]? with
    | none => none
    | some x => some (v, .ok x)

/-- Embedding of `void Resize(size_t new_size)`. -/
def Resize [Inhabited α] (junk : Nat → α) (v : SimpleVector α) (new_size : Nat) :
    Option (SimpleVector α) :=
  if new_size ≤ v.size_ then some { v with size_ := new_size }
  else if new_size ≤ v.capacity_ then
    let old_size := v.size_
    let v1 : SimpleVector α := { v with size_ := new_size }
    match std_generate v1.arr_ptr_.raw_ptr_ (v1.begin_ + old_size) v1.end_
        (fun _ => default) with
    | none => none
    | some blk => some { v1 with arr_ptr_ := ⟨blk⟩ }
  else if new_size > v.capacity_ then
    let new_cap := max new_size (v.capacity_ * 2)
    match ctor_size junk new_cap with
    | none => none
    | some tmp =>
      match std_move v.arr_ptr_.raw_ptr_ v.begin_ v.end_ tmp.arr_ptr_.raw_ptr_ tmp.begin_ with
      | none => none
      | some r => some (v.swap { tmp with arr_ptr_ := ⟨r.1⟩ }).1
  else some v

end SimpleVector

/-- Embedding of `operator==(const SimpleVector&, const SimpleVector&)`. -/
def operator_eq {α : Type} [DecidableEq α] (lhs rhs : SimpleVector α) : Option Bool :=
  std_equal lhs.arr_ptr_.raw_ptr_ lhs.begin_ lhs.end_ rhs.arr_ptr_.raw_ptr_ rhs.begin_

/-- Embedding of `operator!=(const SimpleVector&, const SimpleVector&)`. -/
def operator_ne {α : Type} [DecidableEq α] (lhs rhs : SimpleVector α) : Option Bool :=
  (operator_eq lhs rhs).map not

/-- Embedding of `operator<(const SimpleVector&, const SimpleVector&)`. -/
def operator_lt {α : Type} [LT α] [DecidableRel (fun a b : α => a < b)]
    (lhs rhs : SimpleVector α) : Option Bool :=
  std_lexicographical_compare lhs.arr_ptr_.raw_ptr_ lhs.begin_ lhs.end_
    rhs.arr_ptr_.raw_ptr_ rhs.begin_ rhs.end_

/-- Embedding of `operator>(const SimpleVector&, const SimpleVector&)`:
`return rhs < lhs;`. -/
def operator_gt {α : Type} [LT α] [DecidableRel (fun a b : α => a < b)]
    (lhs rhs : SimpleVector α) : Option Bool :=
  operator_lt rhs lhs

/-- Embedding of `operator<=(const SimpleVector&, const SimpleVector&)`:
`return !(lhs > rhs);`. -/
def operator_le {α : Type} [LT α] [DecidableRel (fun a b : α => a < b)]
    (lhs rhs : SimpleVector α) : Option Bool :=
  (operator_gt lhs rhs).map not

/-- Embedding of `operator>=(const SimpleVector&, const SimpleVector&)`:
`return !(lhs < rhs);`. -/
def operator_ge {α : Type} [LT α] [DecidableRel (fun a b : α => a < b)]
    (lhs rhs : SimpleVector α) : Option Bool :=
  (operator_lt lhs rhs).map not

/-- Embedding of the assignment `v[index] = value` through the reference that
`operator[](size_t index)` returns. -/
def SimpleVector.operator_index_assign {α : Type} (v : SimpleVector α) (index : Nat)
    (value : α) : Option (SimpleVector α) :=
  if index < v.size_ then
    match store v.arr_ptr_.raw_ptr_ index value with
    | none => none
    | some blk => some { v with arr_ptr_ := ⟨blk⟩ }
  else none

/-- The standard lexicographic order on sequences, in the words of the spec: the
sequences agree on their first `k` elements and then either the left one ends
while the right one goes on (a proper prefix is less), or both go on and the
left element at index `k` is less than the right one (the first differing
element decides). -/
def LexLess {α : Type} [LT α] (xs ys : List α) : Prop :=
  ∃ k, xs.take k = ys.take k ∧
    ((k = xs.length ∧ k < ys.length) ∨
      ∃ x y, xs[k]? = some x ∧ ys[k]? = some y ∧ x < y)

/-! ## Well-formed containers -/

/-- The representation of a container that exists in a running program: the
owned block has exactly `capacity_` slots. -/
def Allocated {α : Type} (v : SimpleVector α) : Prop :=
  v.arr_ptr_.raw_ptr_.length = v.capacity_

instance {α : Type} (v : SimpleVector α) : Decidable (Allocated v) := by
  unfold Allocated; infer_instance

/-- The invariant the spec states for the container: `size <= capacity`. -/
def SizeLeCapacity {α : Type} (v : SimpleVector α) : Prop :=
  v.size_ ≤ v.capacity_

instance {α : Type} (v : SimpleVector α) : Decidable (SizeLeCapacity v) := by
  unfold SizeLeCapacity; infer_instance


/-! ## Programs over a container

The claims about whole sequences of calls are stated over the constructors and
the mutating member functions as data. -/

/-- The capacity `Insert` allocates when the block is full:
`capacity_ == 0 ? 1 : capacity_ * 2`. -/
def grown (capacity : Nat) : Nat := if capacity = 0 then 1 else capacity * 2

/-- The two conditions every container object of a running program meets. -/
def WellFormed {α : Type} (v : SimpleVector α) : Prop :=
  SizeLeCapacity v ∧ Allocated v

instance {α : Type} (v : SimpleVector α) : Decidable (WellFormed v) := by
  unfold WellFormed; infer_instance

/-- The constructors of `SimpleVector`. -/
inductive Ctor (α : Type) where
  | default
  | size (size : Nat)
  | size_value (size : Nat) (value : α)
  | init (init : List α)
  | copy (other : SimpleVector α)
  | move (other : SimpleVector α)
  | reserve (obj : ReserveProxyObj)

/-- The container built by a constructor call. -/
def Ctor.construct {α : Type} [Inhabited α] (junk : Nat → α) :
    Ctor α → Option (SimpleVector α)
  | .default => some SimpleVector.ctor_default
  | .size n => SimpleVector.ctor_size junk n
  | .size_value n x => SimpleVector.ctor_size_value junk n x
  | .init xs => SimpleVector.ctor_init junk xs
  | .copy other => SimpleVector.ctor_copy junk other
  | .move other => (SimpleVector.ctor_move junk other).map Prod.fst
  | .reserve obj => some (SimpleVector.ctor_reserve junk obj)

/-- Precondition of a constructor call: the container copied or moved from is
itself a well-formed container. -/
def Ctor.pre {α : Type} : Ctor α → Bool
  | .copy other => decide (WellFormed other)
  | .move other => decide (WellFormed other)
  | _ => true

/-- The mutating member functions of `SimpleVector`. -/
inductive Op (α : Type) where
  | PushBack (value : Ref α)
  | PushBack_rv (value : Ref α)
  | PopBack
  | Insert (pos : Nat) (value : Ref α)
  | Insert_rv (pos : Nat) (value : Ref α)
  | Erase (pos : Nat)
  | Resize (new_size : Nat)
  | Reserve (new_capacity : Nat)
  | Clear
  | swap (other : SimpleVector α)

/-- The container after one call of a mutating member function. -/
def Op.apply {α : Type} [Inhabited α] (junk : Nat → α) (v : SimpleVector α) :
    Op α → Option (SimpleVector α)
  | .PushBack x => v.PushBack junk x
  | .PushBack_rv x => v.PushBack_rv junk x
  | .PopBack => v.PopBack
  | .Insert pos x => (v.Insert junk pos x).map Prod.fst
  | .Insert_rv pos x => (v.Insert_rv junk pos x).map Prod.fst
  | .Erase pos => (v.Erase pos).map Prod.fst
  | .Resize n => v.Resize junk n
  | .Reserve n => v.Reserve junk n
  | .Clear => some v.Clear
  | .swap other => some (v.swap other).1

/-- Precondition of a call: `Insert` at a position in `[begin, end]`, `Erase` at
a position in `[begin, end)`, `PopBack` on a non-empty container, `swap` with a
well-formed container; a reference argument designates an object. -/
def Op.pre {α : Type} (v : SimpleVector α) : Op α → Bool
  | .PushBack value => value.valid v
  | .PushBack_rv value => value.valid v
  | .PopBack => decide (0 < v.size_)
  | .Insert pos value => decide (pos ≤ v.size_) && value.valid v
  | .Insert_rv pos value => decide (pos ≤ v.size_) && value.valid v
  | .Erase pos => decide (pos < v.size_)
  | .swap other => decide (WellFormed other)
  | _ => true

/-- The containers obtained after each call of a sequence of calls. -/
def run {α : Type} [Inhabited α] (junk : Nat → α) :
    SimpleVector α → List (Op α) → Option (List (SimpleVector α))
  | _, [] => some []
  | v, op :: ops =>
    match op.apply junk v with
    | none => none
    | some v1 =>
      match run junk v1 ops with
      | none => none
      | some tr => some (v1 :: tr)

/-- Every call of the sequence is made within its precondition. -/
def valid_ops {α : Type} [Inhabited α] (junk : Nat → α) :
    SimpleVector α → List (Op α) → Bool
  | _, [] => true
  | v, op :: ops =>
    op.pre v &&
      match op.apply junk v with
      | none => true
      | some v1 => valid_ops junk v1 ops

/-- A constructor call followed by a sequence of calls, each within its
precondition. -/
def valid_program {α : Type} [Inhabited α] (junk : Nat → α) (c : Ctor α)
    (ops : List (Op α)) : Bool :=
  c.pre &&
    match c.construct junk with
    | none => true
    | some v0 => valid_ops junk v0 ops

/-- The container after pushing the given values back one after the other, each
passed as an object outside the block. -/
def PushBack_all {α : Type} [Inhabited α] (junk : Nat → α) :
    SimpleVector α → List α → Option (SimpleVector α)
  | v, [] => some v
  | v, x :: xs =>
    match v.PushBack junk (.object x) with
    | none => none
    | some v1 => PushBack_all junk v1 xs


/-! ## Closed forms of the algorithm loops -/

section Algorithms

variable {α : Type}

theorem store_eq_some {blk : List α} {i : Nat} (h : i < blk.length) (x : α) :
    store blk i x = some (blk.set i x) := by
  simp [store, h]

theorem generate_loop_spec (g : Unit → α) :
    ∀ (n : Nat) (blk : List α) (first : Nat), first + n ≤ blk.length →
      ∃ out, generate_loop g n blk first = some out ∧ out.length = blk.length ∧
        ∀ j, out[j]? = if first ≤ j ∧ j < first + n then some (g ()) else blk[j]? := by
  intro n
  induction n with
  | zero =>
    intro blk first _
    refine ⟨blk, rfl, rfl, fun j => ?_⟩
    have hn : ¬ (first ≤ j ∧ j < first + 0) := by omega
    exact (if_neg hn).symm
  | succ n ih =>
    intro blk first h
    have hlt : first < blk.length := by omega
    obtain ⟨out, ho, hl, hj⟩ := ih (blk.set first (g ())) (first + 1)
      (by rw [List.length_set]; omega)
    refine ⟨out, ?_, ?_, fun j => ?_⟩
    · simp only [generate_loop, store_eq_some hlt]
      exact ho
    · rw [hl, List.length_set]
    · rw [hj j, List.getElem?_set]
      by_cases h1 : first = j
      · subst h1
        have a1 : ¬ (first + 1 ≤ first ∧ first < first + 1 + n) := by omega
        have a2 : first ≤ first ∧ first < first + (n + 1) := by omega
        rw [if_neg a1, if_pos a2, if_pos rfl, if_pos hlt]
      · by_cases h2 : first + 1 ≤ j ∧ j < first + 1 + n
        · have a2 : first ≤ j ∧ j < first + (n + 1) := by omega
          rw [if_pos h2, if_pos a2]
        · have a2 : ¬ (first ≤ j ∧ j < first + (n + 1)) := by omega
          rw [if_neg h2, if_neg a2, if_neg h1]

theorem copy_loop_spec :
    ∀ (n : Nat) (src : List α) (first : Nat) (dst : List α) (d : Nat),
      first + n ≤ src.length → d + n ≤ dst.length →
      ∃ out, copy_loop n src first dst d = some (out, d + n) ∧ out.length = dst.length ∧
        ∀ j, out[j]? = if d ≤ j ∧ j < d + n then src[first + (j - d)]? else dst[j]? := by
  intro n
  induction n with
  | zero =>
    intro src first dst d _ _
    refine ⟨dst, rfl, rfl, fun j => ?_⟩
    have hn : ¬ (d ≤ j ∧ j < d + 0) := by omega
    exact (if_neg hn).symm
  | succ n ih =>
    intro src first dst d hs hd
    have hlt : d < dst.length := by omega
    have hfs : first < src.length := by omega
    obtain ⟨out, ho, hl, hj⟩ := ih src (first + 1) (dst.set d src[first]) (d + 1)
      (by omega) (by rw [List.length_set]; omega)
    refine ⟨out, ?_, ?_, fun j => ?_⟩
    · simp only [copy_loop, List.getElem?_eq_getElem hfs, store_eq_some hlt]
      rw [ho]
      congr 2
      omega
    · rw [hl, List.length_set]
    · rw [hj j, List.getElem?_set]
      by_cases h1 : d = j
      · subst h1
        have a1 : ¬ (d + 1 ≤ d ∧ d < d + 1 + n) := by omega
        have a2 : d ≤ d ∧ d < d + (n + 1) := by omega
        rw [if_neg a1, if_pos a2, if_pos rfl, if_pos hlt, Nat.sub_self, Nat.add_zero,
          List.getElem?_eq_getElem hfs]
      · by_cases h2 : d + 1 ≤ j ∧ j < d + 1 + n
        · have a2 : d ≤ j ∧ j < d + (n + 1) := by omega
          have e : first + 1 + (j - (d + 1)) = first + (j - d) := by omega
          rw [if_pos h2, if_pos a2, e]
        · have a2 : ¬ (d ≤ j ∧ j < d + (n + 1)) := by omega
          rw [if_neg h2, if_neg a2, if_neg h1]

theorem copy_loop_within_spec :
    ∀ (n : Nat) (blk : List α) (first d : Nat),
      d ≤ first → first + n ≤ blk.length →
      ∃ out, copy_loop_within n blk first d = some (out, d + n) ∧
        out.length = blk.length ∧
        ∀ j, out[j]? = if d ≤ j ∧ j < d + n then blk[first + (j - d)]? else blk[j]? := by
  intro n
  induction n with
  | zero =>
    intro blk first d _ _
    refine ⟨blk, rfl, rfl, fun j => ?_⟩
    have hn : ¬ (d ≤ j ∧ j < d + 0) := by omega
    exact (if_neg hn).symm
  | succ n ih =>
    intro blk first d hdf hs
    have hfs : first < blk.length := by omega
    have hlt : d < blk.length := by omega
    obtain ⟨out, ho, hl, hj⟩ := ih (blk.set d blk[first]) (first + 1) (d + 1)
      (by omega) (by rw [List.length_set]; omega)
    refine ⟨out, ?_, ?_, fun j => ?_⟩
    · simp only [copy_loop_within, List.getElem?_eq_getElem hfs, store_eq_some hlt]
      rw [ho]
      congr 2
      omega
    · rw [hl, List.length_set]
    · rw [hj j]
      by_cases h1 : d = j
      · subst h1
        have a1 : ¬ (d + 1 ≤ d ∧ d < d + 1 + n) := by omega
        have a2 : d ≤ d ∧ d < d + (n + 1) := by omega
        rw [if_neg a1, if_pos a2, List.getElem?_set, if_pos rfl, if_pos hlt, Nat.sub_self,
          Nat.add_zero, List.getElem?_eq_getElem hfs]
      · by_cases h2 : d + 1 ≤ j ∧ j < d + 1 + n
        · have a2 : d ≤ j ∧ j < d + (n + 1) := by omega
          have e : first + 1 + (j - (d + 1)) = first + (j - d) := by omega
          have ne : d ≠ first + (j - d) := by omega
          rw [if_pos h2, if_pos a2, e, List.getElem?_set_ne ne]
        · have a2 : ¬ (d ≤ j ∧ j < d + (n + 1)) := by omega
          rw [if_neg h2, if_neg a2, List.getElem?_set_ne h1]

theorem copy_backward_loop_spec :
    ∀ (n : Nat) (src : List α) (last : Nat) (dst : List α) (d : Nat),
      n ≤ last → last ≤ src.length → n ≤ d → d ≤ dst.length →
      ∃ out, copy_backward_loop n src last dst d = some (out, d - n) ∧
        out.length = dst.length ∧
        ∀ j, out[j]? = if d - n ≤ j ∧ j < d then src[last - (d - j)]? else dst[j]? := by
  intro n
  induction n with
  | zero =>
    intro src last dst d _ _ _ _
    refine ⟨dst, rfl, rfl, fun j => ?_⟩
    have hn : ¬ (d - 0 ≤ j ∧ j < d) := by omega
    exact (if_neg hn).symm
  | succ n ih =>
    intro src last dst d hnl hls hnd hdl
    have hfs : last - 1 < src.length := by omega
    have hlt : d - 1 < dst.length := by omega
    have hz : ¬ (last = 0 ∨ d = 0) := by omega
    obtain ⟨out, ho, hl, hj⟩ := ih src (last - 1) (dst.set (d - 1) src[last - 1]) (d - 1)
      (by omega) (by omega) (by omega) (by rw [List.length_set]; omega)
    refine ⟨out, ?_, ?_, fun j => ?_⟩
    · simp only [copy_backward_loop, hz, if_false, List.getElem?_eq_getElem hfs,
        store_eq_some hlt]
      rw [ho]
      congr 2
      omega
    · rw [hl, List.length_set]
    · rw [hj j]
      by_cases h1 : d - 1 = j
      · subst h1
        have a1 : ¬ (d - 1 - n ≤ d - 1 ∧ d - 1 < d - 1) := by omega
        have a2 : d - (n + 1) ≤ d - 1 ∧ d - 1 < d := by omega
        have e : last - (d - (d - 1)) = last - 1 := by omega
        rw [if_neg a1, if_pos a2, e, List.getElem?_set, if_pos rfl, if_pos hlt,
          List.getElem?_eq_getElem hfs]
      · by_cases h2 : d - 1 - n ≤ j ∧ j < d - 1
        · have a2 : d - (n + 1) ≤ j ∧ j < d := by omega
          have e : last - 1 - (d - 1 - j) = last - (d - j) := by omega
          rw [if_pos h2, if_pos a2, e]
        · have a2 : ¬ (d - (n + 1) ≤ j ∧ j < d) := by omega
          rw [if_neg h2, if_neg a2, List.getElem?_set_ne h1]

theorem copy_backward_loop_within_spec :
    ∀ (n : Nat) (blk : List α) (last d : Nat),
      n ≤ last → last ≤ d → d ≤ blk.length →
      ∃ out, copy_backward_loop_within n blk last d = some (out, d - n) ∧
        out.length = blk.length ∧
        ∀ j, out[j]? = if d - n ≤ j ∧ j < d then blk[last - (d - j)]? else blk[j]? := by
  intro n
  induction n with
  | zero =>
    intro blk last d _ _ _
    refine ⟨blk, rfl, rfl, fun j => ?_⟩
    have hn : ¬ (d - 0 ≤ j ∧ j < d) := by omega
    exact (if_neg hn).symm
  | succ n ih =>
    intro blk last d hnl hld hdl
    have hfs : last - 1 < blk.length := by omega
    have hlt : d - 1 < blk.length := by omega
    have hz : ¬ (last = 0 ∨ d = 0) := by omega
    obtain ⟨out, ho, hl, hj⟩ := ih (blk.set (d - 1) blk[last - 1]) (last - 1) (d - 1)
      (by omega) (by omega) (by rw [List.length_set]; omega)
    refine ⟨out, ?_, ?_, fun j => ?_⟩
    · simp only [copy_backward_loop_within, hz, if_false, List.getElem?_eq_getElem hfs,
        store_eq_some hlt]
      rw [ho]
      congr 2
      omega
    · rw [hl, List.length_set]
    · rw [hj j]
      by_cases h1 : d - 1 = j
      · subst h1
        have a1 : ¬ (d - 1 - n ≤ d - 1 ∧ d - 1 < d - 1) := by omega
        have a2 : d - (n + 1) ≤ d - 1 ∧ d - 1 < d := by omega
        have e : last - (d - (d - 1)) = last - 1 := by omega
        rw [if_neg a1, if_pos a2, e, List.getElem?_set, if_pos rfl, if_pos hlt,
          List.getElem?_eq_getElem hfs]
      · by_cases h2 : d - 1 - n ≤ j ∧ j < d - 1
        · have a2 : d - (n + 1) ≤ j ∧ j < d := by omega
          have e : last - 1 - (d - 1 - j) = last - (d - j) := by omega
          have ne : d - 1 ≠ last - (d - j) := by omega
          rw [if_pos h2, if_pos a2, e, List.getElem?_set_ne ne]
        · have a2 : ¬ (d - (n + 1) ≤ j ∧ j < d) := by omega
          rw [if_neg h2, if_neg a2, List.getElem?_set_ne h1]

end Algorithms


/-! ## Pointwise views of the sequences in the claims -/

section Sequences

variable {α : Type}

theorem getElem?_insert_form (xs : List α) (i : Nat) (hi : i ≤ xs.length) (x : α) (j : Nat) :
    (xs.take i ++ [x] ++ xs.drop i)[j]? =
      if j < i then xs[j]? else if j = i then some x else xs[j - 1]? := by
  have hl : (xs.take i).length = i := by simp [hi]
  by_cases h1 : j < i
  · rw [if_pos h1, List.append_assoc, List.getElem?_append_left (by omega),
      List.getElem?_take, if_pos h1]
  · rw [if_neg h1, List.append_assoc, List.getElem?_append_right (by omega), hl]
    by_cases h2 : j = i
    · subst h2
      simp
    · rw [if_neg h2]
      have h3 : j - i = (j - i - 1) + 1 := by omega
      rw [h3, List.singleton_append, List.getElem?_cons_succ, List.getElem?_drop]
      congr 1
      omega

theorem getElem?_erase_form (xs : List α) (i : Nat) (hi : i ≤ xs.length) (j : Nat) :
    (xs.take i ++ xs.drop (i + 1))[j]? = if j < i then xs[j]? else xs[j + 1]? := by
  have hl : (xs.take i).length = i := by simp [hi]
  by_cases h1 : j < i
  · rw [if_pos h1, List.getElem?_append_left (by omega), List.getElem?_take, if_pos h1]
  · rw [if_neg h1, List.getElem?_append_right (by omega), hl, List.getElem?_drop]
    congr 1
    omega

theorem eq_replicate_of_getElem? (out : List α) (n : Nat) (a : α)
    (h : ∀ j, out[j]? = if j < n then some a else none) : out = List.replicate n a := by
  apply List.ext_getElem?
  intro j
  rw [h j, List.getElem?_replicate]

theorem length_alloc (junk : Nat → α) (n : Nat) :
    (ArrayPtr.alloc junk n).raw_ptr_.length = n := by
  simp [ArrayPtr.alloc]

end Sequences

/-! ## The operations on well-formed containers -/

namespace SimpleVector

variable {α : Type}

theorem live_getElem? (v : SimpleVector α) (j : Nat) :
    v.live[j]? = if j < v.size_ then v.arr_ptr_.raw_ptr_[j]? else none := by
  simp [live, List.getElem?_take]

theorem live_length (v : SimpleVector α) (hs : SizeLeCapacity v) (ha : Allocated v) :
    v.live.length = v.size_ := by
  unfold SizeLeCapacity at hs
  unfold Allocated at ha
  simp [live, ha, hs]

theorem ctor_size_eq [Inhabited α] (junk : Nat → α) (n : Nat) :
    ctor_size junk n =
      some { arr_ptr_ := ⟨List.replicate n default⟩, size_ := n, capacity_ := n } := by
  obtain ⟨out, ho, hl, hj⟩ := generate_loop_spec (fun _ => (default : α)) n
    (ArrayPtr.alloc junk n).raw_ptr_ 0 (by rw [length_alloc]; omega)
  have hout : out = List.replicate n default := by
    apply eq_replicate_of_getElem?
    intro j
    rw [hj j]
    by_cases h : j < n
    · rw [if_pos (by omega), if_pos h]
    · rw [if_neg (by omega), if_neg h]
      apply List.getElem?_eq_none
      rw [length_alloc]
      omega
  simp only [ctor_size, begin_, end_, std_generate, Nat.zero_le, if_true, Nat.zero_add,
    Nat.sub_zero, ho, hout]

theorem Insert_rv_eq [Inhabited α] (junk : Nat → α) (v : SimpleVector α) (pos : Nat)
    (value : Ref α) : Insert_rv junk v pos value = Insert junk v pos value := rfl

theorem PushBack_rv_eq [Inhabited α] (junk : Nat → α) (v : SimpleVector α) (value : Ref α) :
    PushBack_rv junk v value = PushBack junk v value := rfl

theorem read_of_valid (v : SimpleVector α) (blk : List α) (hl : blk.length = v.capacity_)
    (value : Ref α) (hv : value.valid v = true) : ∃ x, value.read blk = some x := by
  cases value with
  | object y => exact ⟨y, rfl⟩
  | slot k =>
    have hk : k < v.capacity_ := by simpa [Ref.valid] using hv
    exact ⟨blk[k], List.getElem?_eq_getElem (by omega)⟩

theorem Insert_in_place [Inhabited α] (junk : Nat → α) (v : SimpleVector α) (i : Nat)
    (value : Ref α) (hs : v.size_ < v.capacity_) (ha : Allocated v) (hi : i ≤ v.size_)
    (hv : value.valid v = true) :
    ∃ blk x, Insert junk v i value =
        some ({ arr_ptr_ := ⟨blk⟩, size_ := v.size_ + 1, capacity_ := v.capacity_ }, i) ∧
      blk.length = v.capacity_ ∧
      blk.take (v.size_ + 1) = v.live.take i ++ [x] ++ v.live.drop i ∧
      (∀ y, value = .object y → x = y) ∧
      (∀ k, value = .slot k →
        some x = if i < k ∧ k ≤ v.size_ then v.arr_ptr_.raw_ptr_[k - 1]?
          else v.arr_ptr_.raw_ptr_[k]?) := by
  unfold Allocated at ha
  obtain ⟨out, ho, hl, hj⟩ := copy_backward_loop_within_spec (v.size_ - i)
    v.arr_ptr_.raw_ptr_ v.size_ (v.size_ + 1) (by omega) (by omega) (by omega)
  have e1 : v.size_ + 1 - (v.size_ - i) = i + 1 := by omega
  rw [e1] at ho hj
  have hlt : i < out.length := by omega
  obtain ⟨x, hx⟩ := read_of_valid v out (by omega) value hv
  refine ⟨out.set i x, x, ?_, ?_, ?_, ?_, ?_⟩
  · have hne : v.size_ ≠ v.capacity_ := by omega
    simp only [Insert, begin_, end_, Nat.zero_add, Nat.zero_le, true_and, hi, if_true, hne,
      ne_eq, not_false_eq_true, std_copy_backward_within, ho, Nat.add_sub_cancel, hx,
      store_eq_some hlt, Nat.add_one_ne_zero, if_false]
  · rw [List.length_set, hl, ha]
  · apply List.ext_getElem?
    intro j
    have hlen : v.live.length = v.size_ := by simp [live, ha]; omega
    rw [getElem?_insert_form _ _ (by omega), List.getElem?_take, List.getElem?_set, hj j]
    simp only [live_getElem?]
    by_cases h1 : j < i
    · have a1 : ¬ (i + 1 ≤ j ∧ j < v.size_ + 1) := by omega
      rw [if_pos (by omega), if_neg (by omega), if_neg a1, if_pos h1, if_pos (by omega)]
    · by_cases h2 : j = i
      · subst h2
        rw [if_pos (by omega), if_pos rfl, if_pos hlt, if_neg h1, if_pos rfl]
      · rw [if_neg h1, if_neg h2]
        by_cases h3 : j < v.size_ + 1
        · have a1 : i + 1 ≤ j ∧ j < v.size_ + 1 := by omega
          rw [if_pos h3, if_neg (by omega), if_pos a1, if_pos (by omega)]
          congr 1
          omega
        · rw [if_neg h3, if_neg (by omega)]
  · intro y hy
    rw [hy] at hx
    exact (Option.some.inj hx).symm
  · intro k hk
    rw [hk] at hx
    have hx1 : out[k]? = some x := hx
    rw [← hx1, hj k]
    by_cases h1 : i < k ∧ k ≤ v.size_
    · have a1 : i + 1 ≤ k ∧ k < v.size_ + 1 := by omega
      rw [if_pos a1, if_pos h1]
      congr 1
      omega
    · have a1 : ¬ (i + 1 ≤ k ∧ k < v.size_ + 1) := by omega
      rw [if_neg a1, if_neg h1]

theorem Insert_realloc [Inhabited α] (junk : Nat → α) (v : SimpleVector α) (i : Nat)
    (value : Ref α) (hs : v.size_ = v.capacity_) (ha : Allocated v) (hi : i ≤ v.size_)
    (hv : value.valid v = true) :
    ∃ blk x, Insert junk v i value =
        some ({ arr_ptr_ := ⟨blk⟩, size_ := v.size_ + 1, capacity_ := grown v.capacity_ }, i) ∧
      blk.length = grown v.capacity_ ∧
      blk.take (v.size_ + 1) = v.live.take i ++ [x] ++ v.live.drop i ∧
      value.read v.arr_ptr_.raw_ptr_ = some x := by
  unfold Allocated at ha
  have hg : v.size_ + 1 ≤ grown v.capacity_ := by
    unfold grown
    split_ifs <;> omega
  obtain ⟨x, hx⟩ := read_of_valid v v.arr_ptr_.raw_ptr_ ha value hv
  obtain ⟨out1, ho1, hl1, hj1⟩ := copy_loop_spec i v.arr_ptr_.raw_ptr_ 0
    (List.replicate (grown v.capacity_) (default : α)) 0 (by omega)
    (by rw [List.length_replicate]; omega)
  rw [List.length_replicate] at hl1
  have hlt : i < out1.length := by omega
  obtain ⟨out2, ho2, hl2, hj2⟩ := copy_backward_loop_spec (v.size_ - i)
    v.arr_ptr_.raw_ptr_ v.size_ (out1.set i x) (v.size_ + 1) (by omega) (by omega) (by omega)
    (by rw [List.length_set]; omega)
  have e1 : v.size_ + 1 - (v.size_ - i) = i + 1 := by omega
  rw [e1] at ho2 hj2
  rw [List.length_set, hl1] at hl2
  rw [Nat.zero_add] at ho1
  refine ⟨out2, x, ?_, hl2, ?_, hx⟩
  · simp only [Insert, begin_, end_, Nat.zero_add, Nat.zero_le, true_and, hi, if_true, hs,
      ne_eq, not_true_eq_false, if_false, ctor_size_eq, std_copy, Nat.sub_zero, swap,
      ArrayPtr.swap]
    have ho1' : copy_loop i v.arr_ptr_.raw_ptr_ 0
        (List.replicate (if v.capacity_ = 0 then 1 else v.capacity_ * 2) (default : α)) 0
          = some (out1, i) := ho1
    simp only [ho1', hx, store_eq_some hlt, std_copy_backward]
    have hi' : i ≤ v.capacity_ := by omega
    simp only [hi', if_true]
    rw [← hs, ho2]
    rfl
  · apply List.ext_getElem?
    intro j
    have hlen : v.live.length = v.size_ := by simp [live, ha]; omega
    rw [getElem?_insert_form _ _ (by omega), List.getElem?_take, hj2 j, List.getElem?_set,
      hj1 j]
    simp only [live_getElem?]
    by_cases h1 : j < i
    · have a1 : ¬ (i + 1 ≤ j ∧ j < v.size_ + 1) := by omega
      have a2 : 0 ≤ j ∧ j < 0 + i := by omega
      rw [if_pos (by omega), if_neg a1, if_neg (by omega), if_pos a2, if_pos h1,
        if_pos (by omega)]
      congr 1
      omega
    · by_cases h2 : j = i
      · subst h2
        have a1 : ¬ (j + 1 ≤ j ∧ j < v.size_ + 1) := by omega
        rw [if_pos (by omega), if_neg a1, if_pos rfl, if_pos hlt, if_neg h1, if_pos rfl]
      · rw [if_neg h1, if_neg h2]
        by_cases h3 : j < v.size_ + 1
        · have a1 : i + 1 ≤ j ∧ j < v.size_ + 1 := by omega
          rw [if_pos h3, if_pos a1, if_pos (by omega)]
          congr 1
          omega
        · rw [if_neg h3, if_neg (by omega)]

theorem grown_eq_max (c : Nat) : grown c = max 1 (2 * c) := by
  unfold grown
  split_ifs with h
  · subst h; rfl
  · omega

theorem Erase_spec (v : SimpleVector α) (i : Nat) (ha : Allocated v)
    (hs : SizeLeCapacity v) (hi : i < v.size_) :
    ∃ blk, v.Erase i =
        some ({ arr_ptr_ := ⟨blk⟩, size_ := v.size_ - 1, capacity_ := v.capacity_ }, i) ∧
      blk.length = v.capacity_ ∧
      blk.take (v.size_ - 1) = v.live.take i ++ v.live.drop (i + 1) := by
  unfold Allocated at ha
  unfold SizeLeCapacity at hs
  obtain ⟨out, ho, hl, hj⟩ := copy_loop_within_spec (v.size_ - (i + 1))
    v.arr_ptr_.raw_ptr_ (i + 1) i (by omega) (by omega)
  refine ⟨out, ?_, ?_, ?_⟩
  · have hne : ¬ (v.size_ = 0) := by omega
    have hle : i ≤ v.size_ := by omega
    have hle1 : i + 1 ≤ v.size_ := by omega
    simp only [Erase, begin_, end_, IsEmpty, Nat.zero_add, Nat.zero_le, true_and, hle,
      beq_iff_eq, hne, not_false_eq_true, Bool.false_eq_true, and_self, if_true,
      std_move_within, hle1, ho]
  · rw [hl, ha]
  · apply List.ext_getElem?
    intro j
    have hlen : v.live.length = v.size_ := by simp [live, ha]; omega
    rw [getElem?_erase_form _ _ (by omega), List.getElem?_take, hj j]
    simp only [live_getElem?]
    by_cases h1 : j < i
    · have a1 : ¬ (i ≤ j ∧ j < i + (v.size_ - (i + 1))) := by omega
      rw [if_pos h1, if_pos (by omega), if_neg a1, if_pos (by omega)]
    · rw [if_neg h1]
      by_cases h3 : j < v.size_ - 1
      · have a1 : i ≤ j ∧ j < i + (v.size_ - (i + 1)) := by omega
        rw [if_pos h3, if_pos a1, if_pos (by omega)]
        congr 1
        omega
      · rw [if_neg h3, if_neg (by omega)]

theorem Resize_shrink [Inhabited α] (junk : Nat → α) (v : SimpleVector α) (n : Nat)
    (h : n ≤ v.size_) : v.Resize junk n = some { v with size_ := n } := by
  simp only [Resize, h, if_true]

theorem Resize_in_place [Inhabited α] (junk : Nat → α) (v : SimpleVector α) (n : Nat)
    (ha : Allocated v) (h1 : v.size_ < n) (h2 : n ≤ v.capacity_) :
    ∃ blk, v.Resize junk n =
        some { arr_ptr_ := ⟨blk⟩, size_ := n, capacity_ := v.capacity_ } ∧
      blk.length = v.capacity_ ∧
      ∀ j, blk[j]? =
        if v.size_ ≤ j ∧ j < n then some default else v.arr_ptr_.raw_ptr_[j]? := by
  unfold Allocated at ha
  obtain ⟨out, ho, hl, hj⟩ := generate_loop_spec (fun _ => (default : α)) (n - v.size_)
    v.arr_ptr_.raw_ptr_ v.size_ (by omega)
  have e : v.size_ + (n - v.size_) = n := by omega
  rw [e] at hj
  refine ⟨out, ?_, by rw [hl, ha], hj⟩
  have hn : ¬ (n ≤ v.size_) := by omega
  have hle : v.size_ ≤ n := by omega
  simp only [Resize, hn, if_false, h2, if_true, begin_, end_, Nat.zero_add, std_generate, hle,
    ho]

theorem Resize_realloc [Inhabited α] (junk : Nat → α) (v : SimpleVector α) (n : Nat)
    (ha : Allocated v) (hs : SizeLeCapacity v) (h : v.capacity_ < n) :
    ∃ blk, v.Resize junk n =
        some { arr_ptr_ := ⟨blk⟩, size_ := max n (v.capacity_ * 2),
               capacity_ := max n (v.capacity_ * 2) } ∧
      blk.length = max n (v.capacity_ * 2) ∧
      ∀ j, blk[j]? =
        if j < v.size_ then v.arr_ptr_.raw_ptr_[j]?
        else if j < max n (v.capacity_ * 2) then some default else none := by
  unfold Allocated at ha
  unfold SizeLeCapacity at hs
  have hm : n ≤ max n (v.capacity_ * 2) := le_max_left _ _
  obtain ⟨out, ho, hl, hj⟩ := copy_loop_spec v.size_ v.arr_ptr_.raw_ptr_ 0
    (List.replicate (max n (v.capacity_ * 2)) (default : α)) 0 (by omega)
    (by rw [List.length_replicate]; omega)
  rw [List.length_replicate] at hl
  rw [Nat.zero_add] at ho
  refine ⟨out, ?_, hl, fun j => ?_⟩
  · have hn1 : ¬ (n ≤ v.size_) := by omega
    have hn2 : ¬ (n ≤ v.capacity_) := by omega
    simp only [Resize, hn1, hn2, if_false, gt_iff_lt, h, if_true, ctor_size_eq, begin_, end_,
      Nat.zero_add, std_move, std_copy, Nat.zero_le, Nat.sub_zero, ho, swap, ArrayPtr.swap]
  · rw [hj j, List.getElem?_replicate]
    by_cases h1 : j < v.size_
    · have a1 : 0 ≤ j ∧ j < 0 + v.size_ := by omega
      rw [if_pos a1, if_pos h1, Nat.sub_zero, Nat.zero_add]
    · have a1 : ¬ (0 ≤ j ∧ j < 0 + v.size_) := by omega
      rw [if_neg a1, if_neg h1]

theorem Reserve_noop [Inhabited α] (junk : Nat → α) (v : SimpleVector α) (n : Nat)
    (h : n ≤ v.capacity_) : v.Reserve junk n = some v := by
  simp only [Reserve, h, if_true]

theorem Reserve_realloc [Inhabited α] (junk : Nat → α) (v : SimpleVector α) (n : Nat)
    (ha : Allocated v) (hs : SizeLeCapacity v) (h : v.capacity_ < n) :
    ∃ blk, v.Reserve junk n =
        some { arr_ptr_ := ⟨blk⟩, size_ := v.size_, capacity_ := n } ∧
      blk.length = n ∧
      ∀ j, blk[j]? =
        if j < v.size_ then v.arr_ptr_.raw_ptr_[j]?
        else if j < n then some default else none := by
  unfold Allocated at ha
  unfold SizeLeCapacity at hs
  obtain ⟨out, ho, hl, hj⟩ := copy_loop_spec v.size_ v.arr_ptr_.raw_ptr_ 0
    (List.replicate n (default : α)) 0 (by omega)
    (by rw [List.length_replicate]; omega)
  rw [List.length_replicate] at hl
  rw [Nat.zero_add] at ho
  refine ⟨out, ?_, hl, fun j => ?_⟩
  · have hn : ¬ (n ≤ v.capacity_) := by omega
    simp only [Reserve, hn, if_false, ctor_size_eq, begin_, end_,
      Nat.zero_add, std_move, std_copy, Nat.zero_le, if_true, Nat.sub_zero, ho, swap,
      ArrayPtr.swap]
  · rw [hj j, List.getElem?_replicate]
    by_cases h1 : j < v.size_
    · have a1 : 0 ≤ j ∧ j < 0 + v.size_ := by omega
      rw [if_pos a1, if_pos h1, Nat.sub_zero, Nat.zero_add]
    · have a1 : ¬ (0 ≤ j ∧ j < 0 + v.size_) := by omega
      rw [if_neg a1, if_neg h1]

theorem ctor_size_value_eq [Inhabited α] (junk : Nat → α) (n : Nat) (x : α) :
    ctor_size_value junk n x =
      some { arr_ptr_ := ⟨List.replicate n x⟩, size_ := n, capacity_ := n } := by
  obtain ⟨out, ho, _, hj⟩ := generate_loop_spec (fun _ => x) n
    (List.replicate n (default : α)) 0 (by rw [List.length_replicate]; omega)
  have hout : out = List.replicate n x := by
    apply eq_replicate_of_getElem?
    intro j
    rw [hj j]
    by_cases h : j < n
    · rw [if_pos (by omega), if_pos h]
    · rw [if_neg (by omega), if_neg h]
      apply List.getElem?_eq_none
      rw [List.length_replicate]
      omega
  simp only [ctor_size_value, ctor_size_eq, begin_, end_, std_generate, Nat.zero_le, if_true,
    Nat.zero_add, Nat.sub_zero, ho, hout]

theorem ctor_init_eq [Inhabited α] (junk : Nat → α) (xs : List α) :
    ctor_init junk xs =
      some { arr_ptr_ := ⟨xs⟩, size_ := xs.length, capacity_ := xs.length } := by
  obtain ⟨out, ho, _, hj⟩ := copy_loop_spec xs.length xs 0
    (List.replicate xs.length (default : α)) 0 (by omega)
    (by rw [List.length_replicate]; omega)
  have hout : out = xs := by
    apply List.ext_getElem?
    intro j
    rw [hj j]
    by_cases h : j < xs.length
    · have a1 : 0 ≤ j ∧ j < 0 + xs.length := by omega
      rw [if_pos a1, Nat.sub_zero, Nat.zero_add]
    · have a1 : ¬ (0 ≤ j ∧ j < 0 + xs.length) := by omega
      rw [if_neg a1, List.getElem?_eq_none (by rw [List.length_replicate]; omega),
        List.getElem?_eq_none (by omega)]
  simp only [ctor_init, ctor_size_eq, begin_, std_copy, Nat.zero_le, if_true,
    Nat.sub_zero, ho, hout]

theorem ctor_copy_spec (junk : Nat → α) (other : SimpleVector α) (ha : Allocated other)
    (hs : SizeLeCapacity other) :
    ∃ blk, ctor_copy junk other =
        some { arr_ptr_ := ⟨blk⟩, size_ := other.size_, capacity_ := other.capacity_ } ∧
      blk.length = other.capacity_ ∧
      ∀ j, blk[j]? =
        if j < other.size_ then other.arr_ptr_.raw_ptr_[j]?
        else (ArrayPtr.alloc junk other.capacity_).raw_ptr_[j]? := by
  unfold Allocated at ha
  unfold SizeLeCapacity at hs
  obtain ⟨out, ho, hl, hj⟩ := copy_loop_spec other.size_ other.arr_ptr_.raw_ptr_ 0
    (ArrayPtr.alloc junk other.capacity_).raw_ptr_ 0 (by omega)
    (by rw [length_alloc]; omega)
  rw [length_alloc] at hl
  rw [Nat.zero_add] at ho
  refine ⟨out, ?_, hl, fun j => ?_⟩
  · simp only [ctor_copy, GetCapacity, GetSize, begin_, end_, Nat.zero_add, std_copy,
      Nat.zero_le, if_true, Nat.sub_zero, ho]
  · rw [hj j]
    by_cases h1 : j < other.size_
    · have a1 : 0 ≤ j ∧ j < 0 + other.size_ := by omega
      rw [if_pos a1, if_pos h1, Nat.sub_zero, Nat.zero_add]
    · have a1 : ¬ (0 ≤ j ∧ j < 0 + other.size_) := by omega
      rw [if_neg a1, if_neg h1]

theorem ctor_move_spec (junk : Nat → α) (other : SimpleVector α) (ha : Allocated other)
    (hs : SizeLeCapacity other) :
    ∃ blk, ctor_move junk other =
        some ({ arr_ptr_ := ⟨blk⟩, size_ := other.size_, capacity_ := other.capacity_ },
              { other with size_ := 0 }) ∧
      blk.length = other.capacity_ ∧
      ∀ j, blk[j]? =
        if j < other.size_ then other.arr_ptr_.raw_ptr_[j]?
        else (ArrayPtr.alloc junk other.capacity_).raw_ptr_[j]? := by
  unfold Allocated at ha
  unfold SizeLeCapacity at hs
  obtain ⟨out, ho, hl, hj⟩ := copy_loop_spec other.size_ other.arr_ptr_.raw_ptr_ 0
    (ArrayPtr.alloc junk other.capacity_).raw_ptr_ 0 (by omega)
    (by rw [length_alloc]; omega)
  rw [length_alloc] at hl
  rw [Nat.zero_add] at ho
  refine ⟨out, ?_, hl, fun j => ?_⟩
  · simp only [ctor_move, std_move, Clear, GetCapacity, GetSize, begin_, end_, Nat.zero_add,
      std_copy, Nat.zero_le, if_true, Nat.sub_zero, ho]
  · rw [hj j]
    by_cases h1 : j < other.size_
    · have a1 : 0 ≤ j ∧ j < 0 + other.size_ := by omega
      rw [if_pos a1, if_pos h1, Nat.sub_zero, Nat.zero_add]
    · have a1 : ¬ (0 ≤ j ∧ j < 0 + other.size_) := by omega
      rw [if_neg a1, if_neg h1]

theorem PopBack_eq (v : SimpleVector α) (h : 0 < v.size_) :
    v.PopBack = some { v with size_ := v.size_ - 1 } := by
  have hne : ¬ (v.size_ = 0) := by omega
  simp [PopBack, IsEmpty, hne]


theorem getElem?_of_take_eq {blk ys : List α} {n : Nat} (h : blk.take n = ys) (j : Nat)
    (hj : j < n) : blk[j]? = ys[j]? := by
  rw [← h, List.getElem?_take, if_pos hj]

theorem Insert_spec [Inhabited α] (junk : Nat → α) (v : SimpleVector α) (i : Nat)
    (value : Ref α) (ha : Allocated v) (hs : SizeLeCapacity v) (hi : i ≤ v.size_)
    (hv : value.valid v = true) :
    ∃ v1 x, v.Insert junk i value = some (v1, i) ∧ WellFormed v1 ∧
      v1.size_ = v.size_ + 1 ∧
      v1.capacity_ = (if v.size_ < v.capacity_ then v.capacity_ else grown v.capacity_) ∧
      v1.live = v.live.take i ++ [x] ++ v.live.drop i ∧
      (∀ y, value = .object y → x = y) ∧
      (∀ k, value = .slot k →
        some x = if v.size_ < v.capacity_ ∧ i < k ∧ k ≤ v.size_
          then v.arr_ptr_.raw_ptr_[k - 1]? else v.arr_ptr_.raw_ptr_[k]?) := by
  have hs1 : v.size_ ≤ v.capacity_ := hs
  by_cases hlt : v.size_ < v.capacity_
  · obtain ⟨blk, x, hb, hl, ht, hobj, hslot⟩ := Insert_in_place junk v i value hlt ha hi hv
    refine ⟨_, x, hb, ⟨?_, hl⟩, rfl, ?_, ht, hobj, fun k hk => ?_⟩
    · show v.size_ + 1 ≤ v.capacity_
      omega
    · rw [if_pos hlt]
    · rw [hslot k hk]
      by_cases h1 : i < k ∧ k ≤ v.size_
      · rw [if_pos h1, if_pos ⟨hlt, h1⟩]
      · rw [if_neg h1, if_neg (fun h => h1 h.2)]
  · have heq : v.size_ = v.capacity_ := by omega
    obtain ⟨blk, x, hb, hl, ht, hx⟩ := Insert_realloc junk v i value heq ha hi hv
    refine ⟨_, x, hb, ⟨?_, hl⟩, rfl, ?_, ht, fun y hy => ?_, fun k hk => ?_⟩
    · show v.size_ + 1 ≤ grown v.capacity_
      unfold grown
      split_ifs <;> omega
    · rw [if_neg hlt]
    · rw [hy] at hx
      exact (Option.some.inj hx).symm
    · rw [hk] at hx
      rw [if_neg (fun h => hlt h.1)]
      exact hx.symm

theorem PushBack_spec [Inhabited α] (junk : Nat → α) (v : SimpleVector α) (value : Ref α)
    (ha : Allocated v) (hs : SizeLeCapacity v) (hv : value.valid v = true) :
    ∃ v1 x, v.PushBack junk value = some v1 ∧ WellFormed v1 ∧
      v1.size_ = v.size_ + 1 ∧
      v1.capacity_ = (if v.size_ < v.capacity_ then v.capacity_ else grown v.capacity_) ∧
      v1.live = v.live ++ [x] ∧
      value.read v.arr_ptr_.raw_ptr_ = some x := by
  obtain ⟨v1, x, h1, hw, hsz, hc, hlv, hobj, hslot⟩ :=
    Insert_spec junk v v.size_ value ha hs (le_refl _) hv
  refine ⟨v1, x, ?_, hw, hsz, hc, ?_, ?_⟩
  · simp only [PushBack, end_, begin_, Nat.zero_add, h1, Option.map_some']
  · have hlen : v.live.length = v.size_ := live_length v hs ha
    rw [hlv, ← hlen, List.take_length, List.drop_length, List.append_nil]
  · cases value with
    | object y => rw [hobj y rfl]; rfl
    | slot k =>
      have h := hslot k rfl
      rw [if_neg (by omega)] at h
      exact h.symm

theorem Resize_spec [Inhabited α] (junk : Nat → α) (v : SimpleVector α) (n : Nat)
    (ha : Allocated v) (hs : SizeLeCapacity v) :
    ∃ v1, v.Resize junk n = some v1 ∧ WellFormed v1 ∧
      v1.size_ = (if n ≤ v.capacity_ then n else max n (v.capacity_ * 2)) ∧
      v1.capacity_ = (if n ≤ v.capacity_ then v.capacity_ else max n (v.capacity_ * 2)) := by
  have hs1 : v.size_ ≤ v.capacity_ := hs
  by_cases h1 : n ≤ v.size_
  · have hc : n ≤ v.capacity_ := by omega
    refine ⟨_, Resize_shrink junk v n h1, ⟨?_, ha⟩, ?_, ?_⟩
    · show n ≤ v.capacity_
      exact hc
    · rw [if_pos hc]
    · rw [if_pos hc]
  · by_cases h2 : n ≤ v.capacity_
    · obtain ⟨blk, hb, hl, _⟩ := Resize_in_place junk v n ha (by omega) h2
      refine ⟨_, hb, ⟨h2, hl⟩, ?_, ?_⟩
      · rw [if_pos h2]
      · rw [if_pos h2]
    · obtain ⟨blk, hb, hl, _⟩ := Resize_realloc junk v n ha hs (by omega)
      refine ⟨_, hb, ⟨le_refl _, hl⟩, ?_, ?_⟩
      · rw [if_neg h2]
      · rw [if_neg h2]

theorem Reserve_spec [Inhabited α] (junk : Nat → α) (v : SimpleVector α) (n : Nat)
    (ha : Allocated v) (hs : SizeLeCapacity v) :
    ∃ v1, v.Reserve junk n = some v1 ∧ WellFormed v1 ∧ v1.size_ = v.size_ ∧
      v1.capacity_ = max n v.capacity_ := by
  have hs1 : v.size_ ≤ v.capacity_ := hs
  by_cases h : n ≤ v.capacity_
  · exact ⟨v, Reserve_noop junk v n h, ⟨hs, ha⟩, rfl, (max_eq_right h).symm⟩
  · obtain ⟨blk, hb, hl, _⟩ := Reserve_realloc junk v n ha hs (by omega)
    refine ⟨_, hb, ⟨?_, hl⟩, rfl, ?_⟩
    · show v.size_ ≤ n
      omega
    · show n = max n v.capacity_
      rw [max_eq_left (by omega)]

theorem Op.apply_wf [Inhabited α] (junk : Nat → α) (v : SimpleVector α) (op : Op α)
    (hw : WellFormed v) (hp : op.pre v = true) :
    ∃ v1, op.apply junk v = some v1 ∧ WellFormed v1 := by
  obtain ⟨hs, ha⟩ := hw
  have hs1 : v.size_ ≤ v.capacity_ := hs
  cases op with
  | PushBack x =>
    obtain ⟨v1, _, h1, hw1, _⟩ := PushBack_spec junk v x ha hs hp
    exact ⟨v1, h1, hw1⟩
  | PushBack_rv x =>
    obtain ⟨v1, _, h1, hw1, _⟩ := PushBack_spec junk v x ha hs hp
    exact ⟨v1, h1, hw1⟩
  | PopBack =>
    have hpos : 0 < v.size_ := by simpa [Op.pre] using hp
    refine ⟨_, PopBack_eq v hpos, ?_, ha⟩
    show v.size_ - 1 ≤ v.capacity_
    omega
  | Insert pos x =>
    simp only [Op.pre, Bool.and_eq_true, decide_eq_true_eq] at hp
    obtain ⟨v1, _, h1, hw1, _⟩ := Insert_spec junk v pos x ha hs hp.1 hp.2
    exact ⟨v1, by simp only [Op.apply, h1, Option.map_some'], hw1⟩
  | Insert_rv pos x =>
    simp only [Op.pre, Bool.and_eq_true, decide_eq_true_eq] at hp
    obtain ⟨v1, _, h1, hw1, _⟩ := Insert_spec junk v pos x ha hs hp.1 hp.2
    exact ⟨v1, by simp only [Op.apply, Insert_rv_eq, h1, Option.map_some'], hw1⟩
  | Erase pos =>
    have hi : pos < v.size_ := by simpa [Op.pre] using hp
    obtain ⟨blk, hb, hl, _⟩ := Erase_spec v pos ha hs hi
    refine ⟨{ arr_ptr_ := ⟨blk⟩, size_ := v.size_ - 1, capacity_ := v.capacity_ },
      by simp only [Op.apply, hb, Option.map_some'], ?_, hl⟩
    show v.size_ - 1 ≤ v.capacity_
    omega
  | Resize n =>
    obtain ⟨v1, h1, hw1, _⟩ := Resize_spec junk v n ha hs
    exact ⟨v1, h1, hw1⟩
  | Reserve n =>
    obtain ⟨v1, h1, hw1, _⟩ := Reserve_spec junk v n ha hs
    exact ⟨v1, h1, hw1⟩
  | Clear =>
    refine ⟨_, rfl, ?_, ha⟩
    show 0 ≤ v.capacity_
    omega
  | swap other =>
    have ho : WellFormed other := by simpa [Op.pre] using hp
    exact ⟨_, rfl, ho.1, ho.2⟩

theorem Ctor.construct_wf [Inhabited α] (junk : Nat → α) (c : Ctor α) (hp : c.pre = true) :
    ∃ v0, c.construct junk = some v0 ∧ WellFormed v0 := by
  cases c with
  | default => exact ⟨_, rfl, le_refl _, rfl⟩
  | size n =>
    refine ⟨_, ctor_size_eq junk n, le_refl _, ?_⟩
    simp [Allocated]
  | size_value n x =>
    refine ⟨_, ctor_size_value_eq junk n x, le_refl _, ?_⟩
    simp [Allocated]
  | init xs => exact ⟨_, ctor_init_eq junk xs, le_refl _, rfl⟩
  | copy other =>
    have ho : WellFormed other := by simpa [Ctor.pre] using hp
    obtain ⟨blk, hb, hl, _⟩ := ctor_copy_spec junk other ho.2 ho.1
    exact ⟨_, hb, ho.1, hl⟩
  | move other =>
    have ho : WellFormed other := by simpa [Ctor.pre] using hp
    obtain ⟨blk, hb, hl, _⟩ := ctor_move_spec junk other ho.2 ho.1
    exact ⟨{ arr_ptr_ := ⟨blk⟩, size_ := other.size_, capacity_ := other.capacity_ },
      by simp only [Ctor.construct, hb, Option.map_some'], ho.1, hl⟩
  | reserve obj =>
    refine ⟨_, rfl, Nat.zero_le _, ?_⟩
    simp [Allocated, ctor_reserve, ArrayPtr.alloc]

theorem run_wf [Inhabited α] (junk : Nat → α) (ops : List (Op α)) :
    ∀ v : SimpleVector α, WellFormed v → valid_ops junk v ops = true →
      ∃ tr, run junk v ops = some tr ∧ tr.length = ops.length ∧ ∀ s ∈ tr, WellFormed s := by
  induction ops with
  | nil =>
    intro v _ _
    exact ⟨[], rfl, rfl, fun s hs => absurd hs (List.not_mem_nil s)⟩
  | cons op ops ih =>
    intro v hw hv
    simp only [valid_ops, Bool.and_eq_true] at hv
    obtain ⟨v1, h1, hw1⟩ := Op.apply_wf junk v op hw hv.1
    have hv2 : valid_ops junk v1 ops = true := by
      have := hv.2
      rw [h1] at this
      exact this
    obtain ⟨tr, ht, hlen, hall⟩ := ih v1 hw1 hv2
    refine ⟨v1 :: tr, ?_, ?_, ?_⟩
    · simp only [run, h1, ht]
    · simp [hlen]
    · intro s hs
      rcases List.mem_cons.mp hs with h | h
      · rw [h]; exact hw1
      · exact hall s h


theorem operator_index_eq_live (v : SimpleVector α) (j : Nat) :
    v.operator_index j = v.live[j]? := by
  rw [live_getElem?]
  rfl

/-! ## Insertion (C1) -/

/-- C1, the code at the failing input: on `[1, 2, 3]` in a block of capacity 4
(`SimpleVector<int> v{1, 2, 3}; v.Reserve(4);`) the call `v.Insert(v.begin(), v[2])`
takes the in-place branch, shifts the tail and only then reads `value`, which
designates slot 2 and by then holds 2: the live sequence becomes `[2, 1, 2, 3]`
although `v[2]` was 3 when the call was made.  The same call on a full block
(capacity 3) takes the reallocating branch and gives `[3, 1, 2, 3]`, as does the
in-place branch for an object outside the block; the `&&` overload behaves as
the `const&` one. -/
theorem Insert_in_place_reads_value_after_shift :
    (ctor_init (fun _ => 7) [1, 2, 3]).bind (fun v => v.Reserve (fun _ => 7) 4) =
      some (⟨⟨[1, 2, 3, 0]⟩, 3, 4⟩ : SimpleVector Nat) ∧
    (⟨⟨[1, 2, 3, 0]⟩, 3, 4⟩ : SimpleVector Nat).operator_index 2 = some 3 ∧
    (⟨⟨[1, 2, 3, 0]⟩, 3, 4⟩ : SimpleVector Nat).Insert (fun _ => 7) 0 (.slot 2) =
      some (⟨⟨[2, 1, 2, 3]⟩, 4, 4⟩, 0) ∧
    (⟨⟨[1, 2, 3, 0]⟩, 3, 4⟩ : SimpleVector Nat).Insert_rv (fun _ => 7) 0 (.slot 2) =
      some (⟨⟨[2, 1, 2, 3]⟩, 4, 4⟩, 0) ∧
    (⟨⟨[1, 2, 3]⟩, 3, 3⟩ : SimpleVector Nat).Insert (fun _ => 7) 0 (.slot 2) =
      some (⟨⟨[3, 1, 2, 3, 0, 0]⟩, 4, 6⟩, 0) ∧
    (⟨⟨[1, 2, 3, 0]⟩, 3, 4⟩ : SimpleVector Nat).Insert (fun _ => 7) 0 (.object 3) =
      some (⟨⟨[3, 1, 2, 3]⟩, 4, 4⟩, 0) := by
  decide

end SimpleVector

/-! ## Equality (C2) -/

/-- C2, the code at the failing input: `operator==` compares `[1, 2]` with
`[1, 2, 3]` (both built from initializer lists) over the two slots of the left
operand only and answers `true`, and `operator!=` answers `false`, although the
sizes differ; likewise the empty container compares equal to `[1]`. -/
theorem operator_eq_true_on_different_sizes :
    SimpleVector.ctor_init (fun _ => 7) [1, 2] = some ⟨⟨[1, 2]⟩, 2, 2⟩ ∧
    SimpleVector.ctor_init (fun _ => 7) [1, 2, 3] = some ⟨⟨[1, 2, 3]⟩, 3, 3⟩ ∧
    operator_eq (⟨⟨[1, 2]⟩, 2, 2⟩ : SimpleVector Nat) ⟨⟨[1, 2, 3]⟩, 3, 3⟩ = some true ∧
    operator_ne (⟨⟨[1, 2]⟩, 2, 2⟩ : SimpleVector Nat) ⟨⟨[1, 2, 3]⟩, 3, 3⟩ = some false ∧
    operator_eq (⟨⟨[]⟩, 0, 0⟩ : SimpleVector Nat) ⟨⟨[1]⟩, 1, 1⟩ = some true := by
  decide

namespace SimpleVector

variable {α : Type}

/-! ## Resize (C3) -/

/-- C3, the code at the failing input: on the container `[1, 2, 3]` with size 3
and capacity 3, `Resize(4)` takes the reallocating branch and leaves the size at
the new capacity 6, not at 4. -/
theorem Resize_beyond_capacity_size_is_new_capacity :
    (⟨⟨[1, 2, 3]⟩, 3, 3⟩ : SimpleVector Nat).Resize (fun _ => 7) 4 =
        some ⟨⟨[1, 2, 3, 0, 0, 0]⟩, 6, 6⟩ ∧
    ((⟨⟨[1, 2, 3]⟩, 3, 3⟩ : SimpleVector Nat).Resize (fun _ => 7) 4).map GetSize ≠ some 4 := by
  decide

/-! ## Moving from a container (C4) -/

/-- C4 as stated fails: after move-constructing from `[1, 2, 3]` (size 3,
capacity 3) the source has size 0 and capacity 3, and the same holds after
move-assigning it to another container. -/
theorem move_source_keeps_capacity_counterexample :
    (ctor_move (fun _ => 7) (⟨⟨[1, 2, 3]⟩, 3, 3⟩ : SimpleVector Nat)).map
        (fun r => (r.2.GetSize, r.2.GetCapacity)) = some (0, 3) ∧
    (assign_move (fun _ => 7) (⟨⟨[9]⟩, 1, 1⟩ : SimpleVector Nat) ⟨⟨[1, 2, 3]⟩, 3, 3⟩
        false).map (fun r => (r.2.GetSize, r.2.GetCapacity)) = some (0, 3) := by
  decide

/-- C4, amended: move-constructing a new container from `src`, and move-assigning
`src` to a different container `dst`, both succeed and leave `src` with size 0 and
with its capacity unchanged. -/
theorem move_clears_source_size_only (junk : Nat → α) (src dst : SimpleVector α)
    (ha : Allocated src) (hs : SizeLeCapacity src) :
    (∃ v src1, ctor_move junk src = some (v, src1) ∧
      src1.GetSize = 0 ∧ src1.GetCapacity = src.GetCapacity) ∧
    (∃ dst1 src1, assign_move junk dst src false = some (dst1, src1) ∧
      src1.GetSize = 0 ∧ src1.GetCapacity = src.GetCapacity) := by
  obtain ⟨blk, hb, _, _⟩ := ctor_move_spec junk src ha hs
  refine ⟨⟨_, { src with size_ := 0 }, hb, rfl, rfl⟩,
    ⟨(dst.swap { arr_ptr_ := ⟨blk⟩, size_ := src.size_, capacity_ := src.capacity_ }).1,
      { src with size_ := 0 }, ?_, rfl, rfl⟩⟩
  simp only [assign_move, Bool.false_eq_true, if_false, hb]

/-- C4 amended, at a concrete input: the source `[1, 2, 3]` of capacity 3. -/
theorem move_clears_source_size_only_witness :
    Allocated (⟨⟨[1, 2, 3]⟩, 3, 3⟩ : SimpleVector Nat) ∧
    SizeLeCapacity (⟨⟨[1, 2, 3]⟩, 3, 3⟩ : SimpleVector Nat) ∧
    ((∃ v src1, ctor_move (fun _ => 7) (⟨⟨[1, 2, 3]⟩, 3, 3⟩ : SimpleVector Nat) =
        some (v, src1) ∧ src1.GetSize = 0 ∧
        src1.GetCapacity = (⟨⟨[1, 2, 3]⟩, 3, 3⟩ : SimpleVector Nat).GetCapacity) ∧
     (∃ dst1 src1, assign_move (fun _ => 7) (⟨⟨[9]⟩, 1, 1⟩ : SimpleVector Nat)
        ⟨⟨[1, 2, 3]⟩, 3, 3⟩ false = some (dst1, src1) ∧ src1.GetSize = 0 ∧
        src1.GetCapacity = (⟨⟨[1, 2, 3]⟩, 3, 3⟩ : SimpleVector Nat).GetCapacity)) :=
  ⟨by decide, by decide,
   move_clears_source_size_only (fun _ => 7) ⟨⟨[1, 2, 3]⟩, 3, 3⟩ ⟨⟨[9]⟩, 1, 1⟩ (by decide)
     (by decide)⟩

/-! ## The invariant `size <= capacity` (C5) -/

/-- C5: every constructor call within its precondition succeeds and establishes
`size <= capacity`, and every sequence of mutating calls made within their
preconditions on the constructed container runs to its end with
`size <= capacity` holding after every call. -/
theorem size_le_capacity_after_every_call [Inhabited α] (junk : Nat → α) (c : Ctor α)
    (ops : List (Op α)) (h : valid_program junk c ops = true) :
    ∃ v0 tr, c.construct junk = some v0 ∧ SizeLeCapacity v0 ∧
      run junk v0 ops = some tr ∧ tr.length = ops.length ∧ ∀ s ∈ tr, SizeLeCapacity s := by
  simp only [valid_program, Bool.and_eq_true] at h
  obtain ⟨v0, h0, hw0⟩ := Ctor.construct_wf junk c h.1
  have hv : valid_ops junk v0 ops = true := by
    have := h.2
    rw [h0] at this
    exact this
  obtain ⟨tr, ht, hlen, hall⟩ := run_wf junk ops v0 hw0 hv
  exact ⟨v0, tr, h0, hw0.1, ht, hlen, fun s hs => (hall s hs).1⟩

/-- C5, at a concrete input: a container built from `[1, 2, 3]` and taken
through every mutating member function, with arguments outside the block and
arguments that designate a slot of the block. -/
theorem size_le_capacity_after_every_call_witness :
    valid_program (fun _ => 7) (Ctor.init [1, 2, 3])
      [Op.PushBack (.object 4), Op.Erase 0, Op.Insert 1 (.slot 2), Op.Resize 9,
       Op.Insert 2 (.object 5), Op.PopBack, Op.Reserve 30, Op.swap ⟨⟨[8, 8]⟩, 1, 2⟩,
       Op.PushBack_rv (.object 6), Op.PushBack (.slot 0), Op.Insert_rv 0 (.object 1),
       Op.Clear] = true ∧
    ∃ v0 tr, (Ctor.init [1, 2, 3]).construct (fun _ => 7) = some v0 ∧ SizeLeCapacity v0 ∧
      run (fun _ => 7) v0
        [Op.PushBack (.object 4), Op.Erase 0, Op.Insert 1 (.slot 2), Op.Resize 9,
         Op.Insert 2 (.object 5), Op.PopBack, Op.Reserve 30, Op.swap ⟨⟨[8, 8]⟩, 1, 2⟩,
         Op.PushBack_rv (.object 6), Op.PushBack (.slot 0), Op.Insert_rv 0 (.object 1),
         Op.Clear] = some tr ∧
      tr.length =
        [Op.PushBack (.object 4), Op.Erase 0, Op.Insert 1 (.slot 2), Op.Resize 9,
         Op.Insert 2 (.object 5), Op.PopBack, Op.Reserve 30,
         Op.swap (⟨⟨[8, 8]⟩, 1, 2⟩ : SimpleVector Nat),
         Op.PushBack_rv (.object 6), Op.PushBack (.slot 0), Op.Insert_rv 0 (.object 1),
         Op.Clear].length ∧
      ∀ s ∈ tr, SizeLeCapacity s :=
  ⟨by decide, size_le_capacity_after_every_call (fun _ => 7) (Ctor.init [1, 2, 3]) _ (by decide)⟩

/-! ## Growth of the capacity (C6, C7) -/

theorem PushBack_keeps_power_of_two [Inhabited α] (junk : Nat → α) (v : SimpleVector α)
    (x : α) (hw : WellFormed v)
    (hq : (v.size_ = 0 ∧ v.capacity_ = 0) ∨
      ∃ e, v.capacity_ = 2 ^ e ∧ v.capacity_ < 2 * v.size_) :
    ∃ v1, v.PushBack junk (.object x) = some v1 ∧ WellFormed v1 ∧ v1.size_ = v.size_ + 1 ∧
      ∃ e, v1.capacity_ = 2 ^ e ∧ v1.capacity_ < 2 * v1.size_ := by
  obtain ⟨v1, _, h1, hw1, hsz, hc, _⟩ := PushBack_spec junk v (.object x) hw.2 hw.1 rfl
  have hs : v.size_ ≤ v.capacity_ := hw.1
  refine ⟨v1, h1, hw1, hsz, ?_⟩
  by_cases hlt : v.size_ < v.capacity_
  · rw [if_pos hlt] at hc
    rcases hq with ⟨h0, h0c⟩ | ⟨e, he, hlt2⟩
    · omega
    · exact ⟨e, by rw [hc, he], by omega⟩
  · rw [if_neg hlt] at hc
    rcases hq with ⟨h0, h0c⟩ | ⟨e, he, hlt2⟩
    · refine ⟨0, ?_, ?_⟩
      · rw [hc, h0c]; rfl
      · rw [hc, h0c, hsz, h0]; decide
    · have hpos : 0 < 2 ^ e := Nat.pos_pow_of_pos e (by decide)
      have hne : ¬ (v.capacity_ = 0) := by omega
      have hg : grown v.capacity_ = v.capacity_ * 2 := by
        unfold grown
        rw [if_neg hne]
      refine ⟨e + 1, ?_, ?_⟩
      · rw [hc, hg, he, pow_succ]
      · rw [hc, hg, hsz]
        omega

theorem PushBack_all_spec [Inhabited α] (junk : Nat → α) (xs : List α) :
    ∀ v : SimpleVector α, WellFormed v →
      ((v.size_ = 0 ∧ v.capacity_ = 0) ∨
        ∃ e, v.capacity_ = 2 ^ e ∧ v.capacity_ < 2 * v.size_) →
      ∃ v1, PushBack_all junk v xs = some v1 ∧ WellFormed v1 ∧
        v1.size_ = v.size_ + xs.length ∧
        ((v1.size_ = 0 ∧ v1.capacity_ = 0) ∨
          ∃ e, v1.capacity_ = 2 ^ e ∧ v1.capacity_ < 2 * v1.size_) := by
  induction xs with
  | nil =>
    intro v hw hq
    exact ⟨v, rfl, hw, rfl, hq⟩
  | cons x xs ih =>
    intro v hw hq
    obtain ⟨v1, h1, hw1, hsz1, hq1⟩ := PushBack_keeps_power_of_two junk v x hw hq
    obtain ⟨v2, h2, hw2, hsz2, hq2⟩ := ih v1 hw1 (Or.inr hq1)
    refine ⟨v2, ?_, hw2, ?_, hq2⟩
    · simp only [PushBack_all, h1, h2]
    · rw [hsz2, hsz1, List.length_cons]
      omega

/-- C6: pushing back `k` values (the list `xs`) onto a default-constructed
container succeeds and leaves size `k`; the capacity is 0 when `k = 0` and
otherwise the smallest power of two that is at least `k`. -/
theorem PushBack_capacity_is_least_power_of_two [Inhabited α] (junk : Nat → α)
    (xs : List α) :
    ∃ v, PushBack_all junk (ctor_default : SimpleVector α) xs = some v ∧
      v.GetSize = xs.length ∧
      (xs.length = 0 → v.GetCapacity = 0) ∧
      (0 < xs.length → ∃ e, v.GetCapacity = 2 ^ e ∧ xs.length ≤ 2 ^ e ∧
        ∀ e1, xs.length ≤ 2 ^ e1 → 2 ^ e ≤ 2 ^ e1) := by
  obtain ⟨v, h, hw, hsz, hq⟩ := PushBack_all_spec junk xs (ctor_default : SimpleVector α)
    ⟨le_refl _, rfl⟩ (Or.inl ⟨rfl, rfl⟩)
  have hsz1 : v.size_ = xs.length := by
    rw [hsz]
    exact Nat.zero_add _
  have hs : v.size_ ≤ v.capacity_ := hw.1
  refine ⟨v, h, hsz1, ?_, ?_⟩
  · intro h0
    rcases hq with ⟨_, hc⟩ | ⟨e, he, hlt⟩
    · exact hc
    · omega
  · intro hpos
    rcases hq with ⟨h0, _⟩ | ⟨e, he, hlt⟩
    · omega
    · refine ⟨e, he, ?_, ?_⟩
      · rw [← he]
        omega
      · intro e1 hle
        by_contra hcon
        have hlt1 : e1 < e := by
          by_contra hge
          exact hcon (Nat.pow_le_pow_right (by decide) (by omega))
        have h2 : 2 ^ (e1 + 1) ≤ 2 ^ e := Nat.pow_le_pow_right (by decide) hlt1
        rw [pow_succ, ← he] at h2
        omega

/-- C6, at a concrete input: five values pushed back give size 5 and capacity 8. -/
theorem PushBack_capacity_is_least_power_of_two_witness :
    PushBack_all (fun _ => 7) (ctor_default : SimpleVector Nat) [10, 20, 30, 40, 50] =
      some ⟨⟨[10, 20, 30, 40, 50, 0, 0, 0]⟩, 5, 8⟩ ∧
    ∃ v, PushBack_all (fun _ => 7) (ctor_default : SimpleVector Nat) [10, 20, 30, 40, 50] =
        some v ∧
      v.GetSize = [10, 20, 30, 40, 50].length ∧
      ([10, 20, 30, 40, 50].length = 0 → v.GetCapacity = 0) ∧
      (0 < [10, 20, 30, 40, 50].length → ∃ e, v.GetCapacity = 2 ^ e ∧
        [10, 20, 30, 40, 50].length ≤ 2 ^ e ∧
        ∀ e1, [10, 20, 30, 40, 50].length ≤ 2 ^ e1 → 2 ^ e ≤ 2 ^ e1) :=
  ⟨by decide, PushBack_capacity_is_least_power_of_two (fun _ => 7) [10, 20, 30, 40, 50]⟩

/-- C7: on a container with `size <= capacity`, `PushBack` and `Insert` at a valid
position (both overloads of each, for every argument, outside the block or a slot
of it) keep the capacity when `size < capacity` and set it to
`max(1, 2 * capacity)` when `size == capacity`; `Resize(n)` keeps the capacity
when `n <= capacity` and sets it to `max(n, 2 * capacity)` otherwise. -/
theorem capacity_follows_growth_policy [Inhabited α] (junk : Nat → α)
    (v : SimpleVector α) (ha : Allocated v) (hs : SizeLeCapacity v) :
    (∀ value : Ref α, value.valid v = true →
      ∃ v1, v.PushBack junk value = some v1 ∧ v.PushBack_rv junk value = some v1 ∧
      v1.GetCapacity =
        if v.GetSize < v.GetCapacity then v.GetCapacity else max 1 (2 * v.GetCapacity)) ∧
    (∀ i (value : Ref α), i ≤ v.GetSize → value.valid v = true →
      ∃ v1 it, v.Insert junk (v.begin_ + i) value = some (v1, it) ∧
        v.Insert_rv junk (v.begin_ + i) value = some (v1, it) ∧
        v1.GetCapacity =
          if v.GetSize < v.GetCapacity then v.GetCapacity else max 1 (2 * v.GetCapacity)) ∧
    (∀ n, ∃ v1, v.Resize junk n = some v1 ∧
      v1.GetCapacity =
        if n ≤ v.GetCapacity then v.GetCapacity else max n (2 * v.GetCapacity)) := by
  refine ⟨fun x hx => ?_, fun i x hi hx => ?_, fun n => ?_⟩
  · obtain ⟨v1, _, h1, _, _, hc, _⟩ := PushBack_spec junk v x ha hs hx
    refine ⟨v1, h1, by rw [PushBack_rv_eq]; exact h1, ?_⟩
    rw [← grown_eq_max]
    exact hc
  · obtain ⟨v1, _, h1, _, _, hc, _⟩ := Insert_spec junk v i x ha hs hi hx
    have hb : v.begin_ + i = i := Nat.zero_add i
    refine ⟨v1, i, by rw [hb]; exact h1, by rw [hb, Insert_rv_eq]; exact h1, ?_⟩
    rw [← grown_eq_max]
    exact hc
  · obtain ⟨v1, h1, _, _, hc⟩ := Resize_spec junk v n ha hs
    refine ⟨v1, h1, ?_⟩
    rw [Nat.mul_comm 2]
    exact hc

/-- C7, at concrete inputs: an empty container of capacity 0 grows to capacity 1,
and the theorem at the full container `[1, 2, 3]` of capacity 3. -/
theorem capacity_follows_growth_policy_witness :
    ((ctor_default : SimpleVector Nat).PushBack (fun _ => 7) (.object 5) =
        some ⟨⟨[5]⟩, 1, 1⟩ ∧
     (⟨⟨[1, 2, 3]⟩, 3, 3⟩ : SimpleVector Nat).PushBack (fun _ => 7) (.slot 0) =
        some ⟨⟨[1, 2, 3, 1, 0, 0]⟩, 4, 6⟩) ∧
    ((∀ value : Ref Nat, value.valid (⟨⟨[1, 2, 3]⟩, 3, 3⟩ : SimpleVector Nat) = true →
      ∃ v1, (⟨⟨[1, 2, 3]⟩, 3, 3⟩ : SimpleVector Nat).PushBack (fun _ => 7) value = some v1 ∧
      (⟨⟨[1, 2, 3]⟩, 3, 3⟩ : SimpleVector Nat).PushBack_rv (fun _ => 7) value = some v1 ∧
      v1.GetCapacity =
        if (⟨⟨[1, 2, 3]⟩, 3, 3⟩ : SimpleVector Nat).GetSize <
            (⟨⟨[1, 2, 3]⟩, 3, 3⟩ : SimpleVector Nat).GetCapacity
        then (⟨⟨[1, 2, 3]⟩, 3, 3⟩ : SimpleVector Nat).GetCapacity
        else max 1 (2 * (⟨⟨[1, 2, 3]⟩, 3, 3⟩ : SimpleVector Nat).GetCapacity)) ∧
    (∀ i (value : Ref Nat), i ≤ (⟨⟨[1, 2, 3]⟩, 3, 3⟩ : SimpleVector Nat).GetSize →
      value.valid (⟨⟨[1, 2, 3]⟩, 3, 3⟩ : SimpleVector Nat) = true →
      ∃ v1 it, (⟨⟨[1, 2, 3]⟩, 3, 3⟩ : SimpleVector Nat).Insert (fun _ => 7)
          ((⟨⟨[1, 2, 3]⟩, 3, 3⟩ : SimpleVector Nat).begin_ + i) value = some (v1, it) ∧
        (⟨⟨[1, 2, 3]⟩, 3, 3⟩ : SimpleVector Nat).Insert_rv (fun _ => 7)
          ((⟨⟨[1, 2, 3]⟩, 3, 3⟩ : SimpleVector Nat).begin_ + i) value = some (v1, it) ∧
        v1.GetCapacity =
          if (⟨⟨[1, 2, 3]⟩, 3, 3⟩ : SimpleVector Nat).GetSize <
              (⟨⟨[1, 2, 3]⟩, 3, 3⟩ : SimpleVector Nat).GetCapacity
          then (⟨⟨[1, 2, 3]⟩, 3, 3⟩ : SimpleVector Nat).GetCapacity
          else max 1 (2 * (⟨⟨[1, 2, 3]⟩, 3, 3⟩ : SimpleVector Nat).GetCapacity)) ∧
    (∀ n, ∃ v1, (⟨⟨[1, 2, 3]⟩, 3, 3⟩ : SimpleVector Nat).Resize (fun _ => 7) n = some v1 ∧
      v1.GetCapacity =
        if n ≤ (⟨⟨[1, 2, 3]⟩, 3, 3⟩ : SimpleVector Nat).GetCapacity
        then (⟨⟨[1, 2, 3]⟩, 3, 3⟩ : SimpleVector Nat).GetCapacity
        else max n (2 * (⟨⟨[1, 2, 3]⟩, 3, 3⟩ : SimpleVector Nat).GetCapacity))) :=
  ⟨by decide,
   capacity_follows_growth_policy (fun _ => 7) (⟨⟨[1, 2, 3]⟩, 3, 3⟩ : SimpleVector Nat)
     (by decide) (by decide)⟩

/-! ## Appending (C8) -/

theorem valid_of_read (v : SimpleVector α) (ha : Allocated v) (value : Ref α) (x : α)
    (hx : value.read v.arr_ptr_.raw_ptr_ = some x) : value.valid v = true := by
  have ha1 : v.arr_ptr_.raw_ptr_.length = v.capacity_ := ha
  cases value with
  | object y => rfl
  | slot k =>
    have hk : v.arr_ptr_.raw_ptr_[k]? = some x := hx
    obtain ⟨hlt, _⟩ := List.getElem?_eq_some.mp hk
    simp only [Ref.valid, decide_eq_true_eq]
    omega

theorem Insert_end_eq_of_read [Inhabited α] (junk : Nat → α) (v : SimpleVector α)
    (value : Ref α) (x : α) (hx : value.read v.arr_ptr_.raw_ptr_ = some x) :
    v.Insert junk v.end_ value = v.Insert junk v.end_ (.object x) := by
  have hobj : (Ref.object x).read v.arr_ptr_.raw_ptr_ = some x := rfl
  by_cases h : v.size_ = v.capacity_
  · simp only [Insert, end_, begin_, Nat.zero_add, h, ne_eq, not_true_eq_false, if_false, hx,
      hobj]
  · simp only [Insert, end_, begin_, Nat.zero_add, h, ne_eq, not_false_eq_true, if_true,
      std_copy_backward_within, le_refl, Nat.sub_self, copy_backward_loop_within, hx, hobj]

/-- C8: on a container with `size <= capacity`, `PushBack(value)` for a reference
`value` that designates `x` when the call is made (an object outside the block or
a slot of it), and the `&&` overload for an rvalue `x` outside the block, give the
container that `Insert(end(), value)` gives: the size is one more, the live
sequence is `xs ++ [x]`, and every element that was live keeps its index and
value. -/
theorem PushBack_appends_value [Inhabited α] (junk : Nat → α) (v : SimpleVector α)
    (value : Ref α) (x : α) (ha : Allocated v) (hs : SizeLeCapacity v)
    (hx : value.read v.arr_ptr_.raw_ptr_ = some x) :
    ∃ v1 it, v.Insert junk v.end_ value = some (v1, it) ∧
      v.PushBack junk value = some v1 ∧ v.PushBack_rv junk (.object x) = some v1 ∧
      v1.GetSize = v.GetSize + 1 ∧
      v1.live = v.live ++ [x] ∧
      ∀ j, j < v.GetSize → v1.operator_index j = v.operator_index j := by
  obtain ⟨v1, y, h1, _, hsz, _, hlv, hy⟩ :=
    PushBack_spec junk v value ha hs (valid_of_read v ha value x hx)
  have hyx : y = x := Option.some.inj (hy.symm.trans hx)
  rw [hyx] at hlv
  have hins : ∃ it, v.Insert junk v.end_ value = some (v1, it) := by
    simp only [PushBack, Option.map_eq_some', Prod.exists, exists_and_right,
      exists_eq_right] at h1
    exact h1
  obtain ⟨it, hit⟩ := hins
  have hrv : v.PushBack_rv junk (.object x) = some v1 := by
    rw [PushBack_rv_eq, ← h1]
    simp only [PushBack, Insert_end_eq_of_read junk v value x hx]
  refine ⟨v1, it, hit, h1, hrv, hsz, hlv, fun j hj => ?_⟩
  have hlen : v.live.length = v.size_ := live_length v hs ha
  have hj1 : j < v.size_ := hj
  rw [operator_index_eq_live, operator_index_eq_live, hlv,
    List.getElem?_append_left (by omega)]

/-- C8, at a concrete input: pushing `v[0]` back onto `[1, 2]` held in a block of
capacity 3. -/
theorem PushBack_appends_value_witness :
    ((⟨⟨[1, 2, 9]⟩, 2, 3⟩ : SimpleVector Nat).PushBack (fun _ => 7) (.slot 0) =
        some ⟨⟨[1, 2, 1]⟩, 3, 3⟩ ∧
     (⟨⟨[1, 2]⟩, 2, 2⟩ : SimpleVector Nat).PushBack (fun _ => 7) (.object 3) =
        some ⟨⟨[1, 2, 3, 0]⟩, 3, 4⟩) ∧
    ∃ v1 it, (⟨⟨[1, 2, 9]⟩, 2, 3⟩ : SimpleVector Nat).Insert (fun _ => 7)
        (⟨⟨[1, 2, 9]⟩, 2, 3⟩ : SimpleVector Nat).end_ (.slot 0) = some (v1, it) ∧
      (⟨⟨[1, 2, 9]⟩, 2, 3⟩ : SimpleVector Nat).PushBack (fun _ => 7) (.slot 0) = some v1 ∧
      (⟨⟨[1, 2, 9]⟩, 2, 3⟩ : SimpleVector Nat).PushBack_rv (fun _ => 7) (.object 1) =
        some v1 ∧
      v1.GetSize = (⟨⟨[1, 2, 9]⟩, 2, 3⟩ : SimpleVector Nat).GetSize + 1 ∧
      v1.live = (⟨⟨[1, 2, 9]⟩, 2, 3⟩ : SimpleVector Nat).live ++ [1] ∧
      ∀ j, j < (⟨⟨[1, 2, 9]⟩, 2, 3⟩ : SimpleVector Nat).GetSize →
        v1.operator_index j = (⟨⟨[1, 2, 9]⟩, 2, 3⟩ : SimpleVector Nat).operator_index j :=
  ⟨by decide,
   PushBack_appends_value (fun _ => 7) ⟨⟨[1, 2, 9]⟩, 2, 3⟩ (.slot 0) 1 (by decide) (by decide)
     (by decide)⟩

/-! ## Erasure (C9) -/

/-- C9: on a container with `size <= capacity` and for every index `i < size`,
`Erase(begin() + i)` returns a container whose live sequence is
`xs[0..i) ++ xs[i+1..)`, whose size is one less and whose capacity and block
length are unchanged, together with the iterator at index `i`: it designates the
element that followed the removed one, and is `end()` when the last element was
removed. -/
theorem Erase_removes_element_at_pos (v : SimpleVector α) (i : Nat) (ha : Allocated v)
    (hs : SizeLeCapacity v) (hi : i < v.GetSize) :
    ∃ v1, v.Erase (v.begin_ + i) = some (v1, v1.begin_ + i) ∧
      v1.live = v.live.take i ++ v.live.drop (i + 1) ∧
      v1.GetSize = v.GetSize - 1 ∧
      v1.GetCapacity = v.GetCapacity ∧
      v1.arr_ptr_.raw_ptr_.length = v.arr_ptr_.raw_ptr_.length ∧
      (i + 1 < v.GetSize → v1.operator_index i = v.operator_index (i + 1)) ∧
      (i + 1 = v.GetSize → v1.begin_ + i = v1.end_) := by
  have hi1 : i < v.size_ := hi
  obtain ⟨blk, hb, hl, ht⟩ := Erase_spec v i ha hs hi1
  have hlen : v.live.length = v.size_ := live_length v hs ha
  have ha1 : v.arr_ptr_.raw_ptr_.length = v.capacity_ := ha
  refine ⟨{ arr_ptr_ := ⟨blk⟩, size_ := v.size_ - 1, capacity_ := v.capacity_ }, ?_, ht, rfl,
    rfl, ?_, ?_, ?_⟩
  · have hb0 : v.begin_ + i = i := Nat.zero_add i
    rw [hb0, hb]
    simp only [begin_, Nat.zero_add]
  · show blk.length = v.arr_ptr_.raw_ptr_.length
    rw [hl, ha1]
  · intro _
    rw [operator_index_eq_live, operator_index_eq_live]
    show (blk.take (v.size_ - 1))[i]? = v.live[i + 1]?
    rw [ht, getElem?_erase_form _ _ (by omega), if_neg (by omega)]
  · intro h
    have h1 : i + 1 = v.size_ := h
    show 0 + i = 0 + (v.size_ - 1)
    omega

/-- C9, at a concrete input: erasing the first element of `[1, 2, 3]`. -/
theorem Erase_removes_element_at_pos_witness :
    (⟨⟨[1, 2, 3]⟩, 3, 3⟩ : SimpleVector Nat).Erase 0 = some (⟨⟨[2, 3, 3]⟩, 2, 3⟩, 0) ∧
    ∃ v1, (⟨⟨[1, 2, 3]⟩, 3, 3⟩ : SimpleVector Nat).Erase
        ((⟨⟨[1, 2, 3]⟩, 3, 3⟩ : SimpleVector Nat).begin_ + 0) = some (v1, v1.begin_ + 0) ∧
      v1.live = (⟨⟨[1, 2, 3]⟩, 3, 3⟩ : SimpleVector Nat).live.take 0 ++
        (⟨⟨[1, 2, 3]⟩, 3, 3⟩ : SimpleVector Nat).live.drop (0 + 1) ∧
      v1.GetSize = (⟨⟨[1, 2, 3]⟩, 3, 3⟩ : SimpleVector Nat).GetSize - 1 ∧
      v1.GetCapacity = (⟨⟨[1, 2, 3]⟩, 3, 3⟩ : SimpleVector Nat).GetCapacity ∧
      v1.arr_ptr_.raw_ptr_.length =
        (⟨⟨[1, 2, 3]⟩, 3, 3⟩ : SimpleVector Nat).arr_ptr_.raw_ptr_.length ∧
      (0 + 1 < (⟨⟨[1, 2, 3]⟩, 3, 3⟩ : SimpleVector Nat).GetSize →
        v1.operator_index 0 = (⟨⟨[1, 2, 3]⟩, 3, 3⟩ : SimpleVector Nat).operator_index (0 + 1)) ∧
      (0 + 1 = (⟨⟨[1, 2, 3]⟩, 3, 3⟩ : SimpleVector Nat).GetSize → v1.begin_ + 0 = v1.end_) :=
  ⟨by decide,
   Erase_removes_element_at_pos ⟨⟨[1, 2, 3]⟩, 3, 3⟩ 0 (by decide) (by decide) (by decide)⟩

/-! ## Checked access (C10) -/

/-- C10: on a container with `size <= capacity`, both overloads of `At(i)` return
normally from the model for every `i`; the outcome is the out-of-range exception
exactly when `i >= size`; when `i < size` it is the element `operator[](i)`
designates; and the container after the call is the container before it. -/
theorem At_checks_index_against_size (v : SimpleVector α) (i : Nat) (ha : Allocated v)
    (hs : SizeLeCapacity v) :
    ∃ r, v.At i = some (v, r) ∧ v.At_const i = some r ∧
      (r = Except.error Exception.out_of_range ↔ v.GetSize ≤ i) ∧
      (i < v.GetSize → ∃ x, r = Except.ok x ∧ v.operator_index i = some x) := by
  have ha1 : v.arr_ptr_.raw_ptr_.length = v.capacity_ := ha
  have hs1 : v.size_ ≤ v.capacity_ := hs
  by_cases h : v.size_ ≤ i
  · refine ⟨Except.error Exception.out_of_range, ?_, ?_, ?_, ?_⟩
    · simp only [At, ge_iff_le, h, if_true]
    · simp only [At_const, ge_iff_le, h, if_true]
    · exact ⟨fun _ => h, fun _ => rfl⟩
    · intro hlt
      have hlt1 : i < v.size_ := hlt
      omega
  · have hlt : i < v.arr_ptr_.raw_ptr_.length := by omega
    have hlt1 : i < v.size_ := by omega
    refine ⟨Except.ok v.arr_ptr_.raw_ptr_[i], ?_, ?_, ?_, ?_⟩
    · simp only [At, ge_iff_le, h, if_false, List.getElem?_eq_getElem hlt]
    · simp only [At_const, ge_iff_le, h, if_false, List.getElem?_eq_getElem hlt]
    · constructor
      · intro hc
        cases hc
      · intro hc
        exact absurd hc h
    · intro _
      refine ⟨_, rfl, ?_⟩
      simp only [operator_index, hlt1, if_true, List.getElem?_eq_getElem hlt]

/-- C10, at a concrete input: `[1, 2, 3]` in a block of capacity 8, read at
`size`, at `size + 5` and at `size - 1`. -/
theorem At_checks_index_against_size_witness :
    ((⟨⟨[1, 2, 3, 0, 0, 0, 0, 0]⟩, 3, 8⟩ : SimpleVector Nat).At_const 3 =
        some (Except.error Exception.out_of_range) ∧
     (⟨⟨[1, 2, 3, 0, 0, 0, 0, 0]⟩, 3, 8⟩ : SimpleVector Nat).At_const 8 =
        some (Except.error Exception.out_of_range) ∧
     (⟨⟨[1, 2, 3, 0, 0, 0, 0, 0]⟩, 3, 8⟩ : SimpleVector Nat).At_const 2 =
        some (Except.ok 3)) ∧
    ∃ r, (⟨⟨[1, 2, 3, 0, 0, 0, 0, 0]⟩, 3, 8⟩ : SimpleVector Nat).At 3 =
        some (⟨⟨[1, 2, 3, 0, 0, 0, 0, 0]⟩, 3, 8⟩, r) ∧
      (⟨⟨[1, 2, 3, 0, 0, 0, 0, 0]⟩, 3, 8⟩ : SimpleVector Nat).At_const 3 = some r ∧
      (r = Except.error Exception.out_of_range ↔
        (⟨⟨[1, 2, 3, 0, 0, 0, 0, 0]⟩, 3, 8⟩ : SimpleVector Nat).GetSize ≤ 3) ∧
      (3 < (⟨⟨[1, 2, 3, 0, 0, 0, 0, 0]⟩, 3, 8⟩ : SimpleVector Nat).GetSize →
        ∃ x, r = Except.ok x ∧
          (⟨⟨[1, 2, 3, 0, 0, 0, 0, 0]⟩, 3, 8⟩ : SimpleVector Nat).operator_index 3 = some x) :=
  ⟨⟨rfl, rfl, rfl⟩,
   At_checks_index_against_size ⟨⟨[1, 2, 3, 0, 0, 0, 0, 0]⟩, 3, 8⟩ 3 (by decide) (by decide)⟩

theorem take_eq_take_of_getElem? {b1 b2 : List α} {n : Nat}
    (h : ∀ j, j < n → b1[j]? = b2[j]?) : b1.take n = b2.take n := by
  apply List.ext_getElem?
  intro j
  rw [List.getElem?_take, List.getElem?_take]
  by_cases hj : j < n
  · rw [if_pos hj, if_pos hj, h j hj]
  · rw [if_neg hj, if_neg hj]

theorem operator_index_of_lt (v : SimpleVector α) (i : Nat) (h : i < v.size_) :
    v.operator_index i = v.arr_ptr_.raw_ptr_[i]? := by
  simp only [operator_index, h, if_true]

/-! ## Reserve (C11) -/

/-- C11: on a container with `size <= capacity`, `Reserve(n)` succeeds, leaves the
size, the live sequence and every element below the size unchanged, and makes the
capacity `max(n, old capacity)`: for `n <= capacity` the container is returned
as it was, for `n > capacity` the capacity is exactly `n`. -/
theorem Reserve_keeps_elements_sets_capacity [Inhabited α] (junk : Nat → α)
    (v : SimpleVector α) (n : Nat) (ha : Allocated v) (hs : SizeLeCapacity v) :
    ∃ v1, v.Reserve junk n = some v1 ∧
      v1.GetSize = v.GetSize ∧
      v1.live = v.live ∧
      (∀ i, i < v.GetSize → v1.operator_index i = v.operator_index i) ∧
      v1.GetCapacity = max n v.GetCapacity ∧
      (n ≤ v.GetCapacity → v1 = v) ∧
      (v.GetCapacity < n → v1.GetCapacity = n) := by
  by_cases h : n ≤ v.capacity_
  · exact ⟨v, Reserve_noop junk v n h, rfl, rfl, fun _ _ => rfl, (max_eq_right h).symm,
      fun _ => rfl, fun hc => absurd h (Nat.not_le.mpr hc)⟩
  · obtain ⟨blk, hb, _, hj⟩ := Reserve_realloc junk v n ha hs (by omega)
    refine ⟨{ arr_ptr_ := ⟨blk⟩, size_ := v.size_, capacity_ := n }, hb, rfl, ?_, ?_, ?_,
      fun hc => absurd hc h, fun _ => rfl⟩
    · show blk.take v.size_ = v.arr_ptr_.raw_ptr_.take v.size_
      apply take_eq_take_of_getElem?
      intro j hjlt
      rw [hj j, if_pos hjlt]
    · intro i hi
      have hi1 : i < v.size_ := hi
      rw [operator_index_of_lt v i hi1,
        operator_index_of_lt { arr_ptr_ := ⟨blk⟩, size_ := v.size_, capacity_ := n } i hi1]
      show blk[i]? = v.arr_ptr_.raw_ptr_[i]?
      rw [hj i, if_pos hi1]
    · show n = max n v.capacity_
      rw [max_eq_left (by omega)]

/-- C11, at a concrete input: `[1, 2]` in a block of capacity 3, reserved to 5. -/
theorem Reserve_keeps_elements_sets_capacity_witness :
    (⟨⟨[1, 2, 9]⟩, 2, 3⟩ : SimpleVector Nat).Reserve (fun _ => 7) 5 =
      some ⟨⟨[1, 2, 0, 0, 0]⟩, 2, 5⟩ ∧
    ∃ v1, (⟨⟨[1, 2, 9]⟩, 2, 3⟩ : SimpleVector Nat).Reserve (fun _ => 7) 5 = some v1 ∧
      v1.GetSize = (⟨⟨[1, 2, 9]⟩, 2, 3⟩ : SimpleVector Nat).GetSize ∧
      v1.live = (⟨⟨[1, 2, 9]⟩, 2, 3⟩ : SimpleVector Nat).live ∧
      (∀ i, i < (⟨⟨[1, 2, 9]⟩, 2, 3⟩ : SimpleVector Nat).GetSize →
        v1.operator_index i = (⟨⟨[1, 2, 9]⟩, 2, 3⟩ : SimpleVector Nat).operator_index i) ∧
      v1.GetCapacity = max 5 (⟨⟨[1, 2, 9]⟩, 2, 3⟩ : SimpleVector Nat).GetCapacity ∧
      (5 ≤ (⟨⟨[1, 2, 9]⟩, 2, 3⟩ : SimpleVector Nat).GetCapacity →
        v1 = (⟨⟨[1, 2, 9]⟩, 2, 3⟩ : SimpleVector Nat)) ∧
      ((⟨⟨[1, 2, 9]⟩, 2, 3⟩ : SimpleVector Nat).GetCapacity < 5 → v1.GetCapacity = 5) :=
  ⟨by decide,
   Reserve_keeps_elements_sets_capacity (fun _ => 7) ⟨⟨[1, 2, 9]⟩, 2, 3⟩ 5 (by decide)
     (by decide)⟩

/-! ## Construction from a sequence, a count, a count and a value (C13, C14) -/

/-- C13: for every sequence `xs`, the empty one included, the container
constructed from the initializer list `xs` has size and capacity `|xs|`, iterating
it from `begin()` to `end()` yields `xs`, and element `i` is `xs[i]` for every
`i < |xs|`. -/
theorem ctor_init_round_trip [Inhabited α] (junk : Nat → α) (xs : List α) :
    ∃ v, ctor_init junk xs = some v ∧
      v.GetSize = xs.length ∧ v.GetCapacity = xs.length ∧
      v.begin_ = 0 ∧ v.end_ = xs.length ∧
      v.live = xs ∧
      ∀ i, i < xs.length → v.operator_index i = xs[i]? := by
  refine ⟨_, ctor_init_eq junk xs, rfl, rfl, rfl, Nat.zero_add _, ?_, fun i hi => ?_⟩
  · show xs.take xs.length = xs
    exact List.take_length xs
  · exact operator_index_of_lt _ i hi

/-- C13, at concrete inputs: the empty initializer list and `[4, 5, 6]`. -/
theorem ctor_init_round_trip_witness :
    ctor_init (fun _ => 7) ([] : List Nat) = some ⟨⟨[]⟩, 0, 0⟩ ∧
    ∃ v, ctor_init (fun _ => 7) [4, 5, 6] = some v ∧
      v.GetSize = [4, 5, 6].length ∧ v.GetCapacity = [4, 5, 6].length ∧
      v.begin_ = 0 ∧ v.end_ = [4, 5, 6].length ∧
      v.live = [4, 5, 6] ∧
      ∀ i, i < [4, 5, 6].length → v.operator_index i = [4, 5, 6][i]? :=
  ⟨by decide, ctor_init_round_trip (fun _ => 7) [4, 5, 6]⟩

/-- C14: `SimpleVector(count, value)` succeeds with size and capacity `count` and
every one of its `count` elements equal to `value`, the value the caller passed
(the generator reads it through a `const` reference on every call, so the last
slot receives the same value as the first); `SimpleVector(count)` succeeds with
size and capacity `count` and every element equal to `Type()`. -/
theorem ctor_size_value_fills_with_value [Inhabited α] (junk : Nat → α) (count : Nat)
    (value : α) :
    (∃ v, ctor_size_value junk count value = some v ∧
      v.GetSize = count ∧ v.GetCapacity = count ∧
      v.live = List.replicate count value ∧
      ∀ i, i < count → v.operator_index i = some value) ∧
    (∃ w, ctor_size junk count = some w ∧
      w.GetSize = count ∧ w.GetCapacity = count ∧
      w.live = List.replicate count default ∧
      ∀ i, i < count → w.operator_index i = some default) := by
  refine ⟨⟨_, ctor_size_value_eq junk count value, rfl, rfl, ?_, fun i hi => ?_⟩,
    ⟨_, ctor_size_eq junk count, rfl, rfl, ?_, fun i hi => ?_⟩⟩
  · show (List.replicate count value).take count = List.replicate count value
    rw [List.take_replicate, Nat.min_self]
  · rw [operator_index_of_lt _ i hi]
    show (List.replicate count value)[i]? = some value
    rw [List.getElem?_replicate, if_pos hi]
  · show (List.replicate count (default : α)).take count = List.replicate count default
    rw [List.take_replicate, Nat.min_self]
  · rw [operator_index_of_lt _ i hi]
    show (List.replicate count (default : α))[i]? = some default
    rw [List.getElem?_replicate, if_pos hi]

/-- C14, at a concrete input: three copies of 9 and three default values. -/
theorem ctor_size_value_fills_with_value_witness :
    (ctor_size_value (fun _ => 7) 3 (9 : Nat) = some ⟨⟨[9, 9, 9]⟩, 3, 3⟩ ∧
     ctor_size (fun _ => (7 : Nat)) 3 = some ⟨⟨[0, 0, 0]⟩, 3, 3⟩) ∧
    ((∃ v, ctor_size_value (fun _ => 7) 3 (9 : Nat) = some v ∧
      v.GetSize = 3 ∧ v.GetCapacity = 3 ∧
      v.live = List.replicate 3 9 ∧
      ∀ i, i < 3 → v.operator_index i = some 9) ∧
    (∃ w, ctor_size (fun _ => (7 : Nat)) 3 = some w ∧
      w.GetSize = 3 ∧ w.GetCapacity = 3 ∧
      w.live = List.replicate 3 default ∧
      ∀ i, i < 3 → w.operator_index i = some default)) :=
  ⟨by decide, ctor_size_value_fills_with_value (fun _ => 7) 3 9⟩

theorem operator_index_mk (blk : List α) (s c i : Nat) (h : i < s) :
    ({ arr_ptr_ := ⟨blk⟩, size_ := s, capacity_ := c } : SimpleVector α).operator_index i =
      blk[i]? :=
  operator_index_of_lt _ i h

/-! ## Resize and the elements (C15, C18) -/

/-- C15: on a non-empty container with `size <= capacity` and capacity `c`,
`Resize(0)` gives size 0 and capacity `c`, and `Resize(c)` on the result gives
size `c` and capacity `c` in a block of the same length (no reallocation) with
every one of the `c` elements equal to `Type()`, whatever the slots held before. -/
theorem Resize_zero_then_capacity_gives_defaults [Inhabited α] (junk : Nat → α)
    (v : SimpleVector α) (ha : Allocated v) (hs : SizeLeCapacity v) (hne : v.IsEmpty = false) :
    ∃ v1 v2, v.Resize junk 0 = some v1 ∧
      v1.GetSize = 0 ∧ v1.GetCapacity = v.GetCapacity ∧
      v1.Resize junk v.GetCapacity = some v2 ∧
      v2.GetSize = v.GetCapacity ∧ v2.GetCapacity = v.GetCapacity ∧
      v2.arr_ptr_.raw_ptr_.length = v.arr_ptr_.raw_ptr_.length ∧
      v2.live = List.replicate v.GetCapacity default ∧
      ∀ i, i < v.GetCapacity → v2.operator_index i = some default := by
  have ha1 : v.arr_ptr_.raw_ptr_.length = v.capacity_ := ha
  have hs1 : v.size_ ≤ v.capacity_ := hs
  have hpos : 0 < v.size_ := by
    simp only [IsEmpty, beq_eq_false_iff_ne, ne_eq] at hne
    omega
  obtain ⟨blk, hb, hl, hj⟩ := Resize_in_place junk
    ({ v with size_ := 0 } : SimpleVector α) v.capacity_ ha (by show 0 < v.capacity_; omega)
    (le_refl _)
  have hj1 : ∀ j, j < v.capacity_ → blk[j]? = some default := by
    intro j hjlt
    rw [hj j]
    have a1 : (0 : Nat) ≤ j ∧ j < v.capacity_ := ⟨Nat.zero_le j, hjlt⟩
    exact if_pos a1
  refine ⟨{ v with size_ := 0 },
    { arr_ptr_ := ⟨blk⟩, size_ := v.capacity_, capacity_ := v.capacity_ },
    Resize_shrink junk v 0 (Nat.zero_le _), rfl, rfl, hb, rfl, rfl, ?_, ?_, fun i hi => ?_⟩
  · show blk.length = v.arr_ptr_.raw_ptr_.length
    rw [ha1]
    exact hl
  · show blk.take v.capacity_ = List.replicate v.capacity_ default
    apply List.ext_getElem?
    intro j
    rw [List.getElem?_take, List.getElem?_replicate]
    by_cases hjlt : j < v.capacity_
    · rw [if_pos hjlt, if_pos hjlt, hj1 j hjlt]
    · rw [if_neg hjlt, if_neg hjlt]
  · have hi1 : i < v.capacity_ := hi
    rw [operator_index_of_lt
      { arr_ptr_ := ⟨blk⟩, size_ := v.capacity_, capacity_ := v.capacity_ } i hi1]
    exact hj1 i hi1

/-- C15, at a concrete input: `[1, 2]` in a block of capacity 3 holding a stale 9. -/
theorem Resize_zero_then_capacity_gives_defaults_witness :
    ((⟨⟨[1, 2, 9]⟩, 2, 3⟩ : SimpleVector Nat).Resize (fun _ => 7) 0 =
        some ⟨⟨[1, 2, 9]⟩, 0, 3⟩ ∧
     (⟨⟨[1, 2, 9]⟩, 0, 3⟩ : SimpleVector Nat).Resize (fun _ => 7) 3 =
        some ⟨⟨[0, 0, 0]⟩, 3, 3⟩) ∧
    ∃ v1 v2, (⟨⟨[1, 2, 9]⟩, 2, 3⟩ : SimpleVector Nat).Resize (fun _ => 7) 0 = some v1 ∧
      v1.GetSize = 0 ∧ v1.GetCapacity = (⟨⟨[1, 2, 9]⟩, 2, 3⟩ : SimpleVector Nat).GetCapacity ∧
      v1.Resize (fun _ => 7) (⟨⟨[1, 2, 9]⟩, 2, 3⟩ : SimpleVector Nat).GetCapacity = some v2 ∧
      v2.GetSize = (⟨⟨[1, 2, 9]⟩, 2, 3⟩ : SimpleVector Nat).GetCapacity ∧
      v2.GetCapacity = (⟨⟨[1, 2, 9]⟩, 2, 3⟩ : SimpleVector Nat).GetCapacity ∧
      v2.arr_ptr_.raw_ptr_.length =
        (⟨⟨[1, 2, 9]⟩, 2, 3⟩ : SimpleVector Nat).arr_ptr_.raw_ptr_.length ∧
      v2.live = List.replicate (⟨⟨[1, 2, 9]⟩, 2, 3⟩ : SimpleVector Nat).GetCapacity default ∧
      ∀ i, i < (⟨⟨[1, 2, 9]⟩, 2, 3⟩ : SimpleVector Nat).GetCapacity →
        v2.operator_index i = some default :=
  ⟨by decide,
   Resize_zero_then_capacity_gives_defaults (fun _ => 7) ⟨⟨[1, 2, 9]⟩, 2, 3⟩ (by decide)
     (by decide) (by decide)⟩

/-- C18: on a container with `size <= capacity`, `Resize(n)` succeeds; every
element at an index below `min(size, n)` is unchanged and every element at an
index `i` with `size <= i < n` is `Type()`.  The proof covers the shrinking
branch, the in-place branch (whatever the slots between size and capacity held)
and the reallocating branch. -/
theorem Resize_keeps_old_elements_and_defaults_new [Inhabited α] (junk : Nat → α)
    (v : SimpleVector α) (n : Nat) (ha : Allocated v) (hs : SizeLeCapacity v) :
    ∃ v1, v.Resize junk n = some v1 ∧
      (∀ i, i < min v.GetSize n → v1.operator_index i = v.operator_index i) ∧
      (∀ i, v.GetSize ≤ i → i < n → v1.operator_index i = some default) := by
  have hs1 : v.size_ ≤ v.capacity_ := hs
  by_cases h1 : n ≤ v.size_
  · refine ⟨{ v with size_ := n }, Resize_shrink junk v n h1, fun i hi => ?_, fun i h2 h3 => ?_⟩
    · have hi1 : i < min v.size_ n := hi
      have hin : i < n := lt_of_lt_of_le hi1 (Nat.min_le_right _ _)
      rw [operator_index_of_lt v i (by omega),
        operator_index_of_lt { v with size_ := n } i hin]
    · have h2a : v.size_ ≤ i := h2
      omega
  · by_cases h2 : n ≤ v.capacity_
    · obtain ⟨blk, hb, _, hj⟩ := Resize_in_place junk v n ha (by omega) h2
      refine ⟨{ arr_ptr_ := ⟨blk⟩, size_ := n, capacity_ := v.capacity_ }, hb,
        fun i hi => ?_, fun i h3 h4 => ?_⟩
      · have hi1 : i < min v.size_ n := hi
        have hin : i < n := lt_of_lt_of_le hi1 (Nat.min_le_right _ _)
        have his : i < v.size_ := lt_of_lt_of_le hi1 (Nat.min_le_left _ _)
        have a1 : ¬ (v.size_ ≤ i ∧ i < n) := by omega
        rw [operator_index_of_lt v i his,
          operator_index_of_lt { arr_ptr_ := ⟨blk⟩, size_ := n, capacity_ := v.capacity_ } i hin]
        show blk[i]? = v.arr_ptr_.raw_ptr_[i]?
        rw [hj i, if_neg a1]
      · have h3a : v.size_ ≤ i := h3
        rw [operator_index_of_lt { arr_ptr_ := ⟨blk⟩, size_ := n, capacity_ := v.capacity_ } i h4]
        show blk[i]? = some default
        rw [hj i, if_pos ⟨h3a, h4⟩]
    · obtain ⟨blk, hb, _, hj⟩ := Resize_realloc junk v n ha hs (by omega)
      have hm : n ≤ max n (v.capacity_ * 2) := le_max_left _ _
      refine ⟨{ arr_ptr_ := ⟨blk⟩, size_ := max n (v.capacity_ * 2),
                capacity_ := max n (v.capacity_ * 2) }, hb, fun i hi => ?_, fun i h3 h4 => ?_⟩
      · have hi1 : i < min v.size_ n := hi
        have hin : i < n := lt_of_lt_of_le hi1 (Nat.min_le_right _ _)
        have his : i < v.size_ := lt_of_lt_of_le hi1 (Nat.min_le_left _ _)
        have hlt : i < max n (v.capacity_ * 2) := by omega
        rw [operator_index_of_lt v i his, operator_index_mk blk _ _ i hlt, hj i, if_pos his]
      · have h3a : v.size_ ≤ i := h3
        have hlt : i < max n (v.capacity_ * 2) := by omega
        rw [operator_index_mk blk _ _ i hlt, hj i, if_neg (by omega), if_pos hlt]

/-- C18, at a concrete input: `[1, 2]` with a stale 9 behind it, resized in place
to 3. -/
theorem Resize_keeps_old_elements_and_defaults_new_witness :
    (⟨⟨[1, 2, 9]⟩, 2, 3⟩ : SimpleVector Nat).Resize (fun _ => 7) 3 =
      some ⟨⟨[1, 2, 0]⟩, 3, 3⟩ ∧
    ∃ v1, (⟨⟨[1, 2, 9]⟩, 2, 3⟩ : SimpleVector Nat).Resize (fun _ => 7) 3 = some v1 ∧
      (∀ i, i < min (⟨⟨[1, 2, 9]⟩, 2, 3⟩ : SimpleVector Nat).GetSize 3 →
        v1.operator_index i = (⟨⟨[1, 2, 9]⟩, 2, 3⟩ : SimpleVector Nat).operator_index i) ∧
      (∀ i, (⟨⟨[1, 2, 9]⟩, 2, 3⟩ : SimpleVector Nat).GetSize ≤ i → i < 3 →
        v1.operator_index i = some default) :=
  ⟨by decide,
   Resize_keeps_old_elements_and_defaults_new (fun _ => 7) ⟨⟨[1, 2, 9]⟩, 2, 3⟩ 3 (by decide)
     (by decide)⟩

/-! ## Copying and moving (C16) -/

/-- C16: for a source `src` with `size <= capacity` and live sequence `xs`, the
container built by copy-construction or by move-construction, and the target of
copy-assignment or move-assignment from `src` to a different container `dst`
(whatever `dst` held), has size `|xs|` and live sequence `xs`; copy-assignment
returns `src` as it was (copy-construction takes it by `const` reference); and
assigning a container to itself, by copy or by move, returns it unchanged. -/
theorem copy_and_move_transfer_live_sequence (junk : Nat → α) (src dst : SimpleVector α)
    (ha : Allocated src) (hs : SizeLeCapacity src) :
    (∃ v, ctor_copy junk src = some v ∧
      v.GetSize = src.live.length ∧ v.live = src.live) ∧
    (∃ v src1, ctor_move junk src = some (v, src1) ∧
      v.GetSize = src.live.length ∧ v.live = src.live) ∧
    (∃ dst1 src1, assign_copy junk dst src false = some (dst1, src1) ∧
      dst1.GetSize = src.live.length ∧ dst1.live = src.live ∧ src1 = src) ∧
    (∃ dst1 src1, assign_move junk dst src false = some (dst1, src1) ∧
      dst1.GetSize = src.live.length ∧ dst1.live = src.live) ∧
    assign_copy junk src src true = some (src, src) ∧
    assign_move junk src src true = some (src, src) := by
  have hlen : src.live.length = src.size_ := live_length src hs ha
  obtain ⟨blk, hb, _, hj⟩ := ctor_copy_spec junk src ha hs
  obtain ⟨blk2, hb2, _, hj2⟩ := ctor_move_spec junk src ha hs
  have hlive : blk.take src.size_ = src.live := by
    apply take_eq_take_of_getElem?
    intro j hjlt
    rw [hj j, if_pos hjlt]
  have hlive2 : blk2.take src.size_ = src.live := by
    apply take_eq_take_of_getElem?
    intro j hjlt
    rw [hj2 j, if_pos hjlt]
  refine ⟨⟨_, hb, hlen.symm, hlive⟩, ⟨_, _, hb2, hlen.symm, hlive2⟩,
    ⟨(dst.swap { arr_ptr_ := ⟨blk⟩, size_ := src.size_, capacity_ := src.capacity_ }).1, src,
      ?_, hlen.symm, hlive, rfl⟩,
    ⟨(dst.swap { arr_ptr_ := ⟨blk2⟩, size_ := src.size_, capacity_ := src.capacity_ }).1,
      { src with size_ := 0 }, ?_, hlen.symm, hlive2⟩, ?_, ?_⟩
  · simp only [assign_copy, Bool.false_eq_true, if_false, hb]
  · simp only [assign_move, Bool.false_eq_true, if_false, hb2]
  · simp only [assign_copy, if_true]
  · simp only [assign_move, if_true]

/-- C16, at a concrete input: the source `[1, 2]` in a block of capacity 3 and a
target holding `[9]`. -/
theorem copy_and_move_transfer_live_sequence_witness :
    (ctor_copy (fun _ => 7) (⟨⟨[1, 2, 5]⟩, 2, 3⟩ : SimpleVector Nat) =
        some ⟨⟨[1, 2, 7]⟩, 2, 3⟩ ∧
     assign_move (fun _ => 7) (⟨⟨[9]⟩, 1, 1⟩ : SimpleVector Nat) ⟨⟨[1, 2, 5]⟩, 2, 3⟩ false =
        some (⟨⟨[1, 2, 7]⟩, 2, 3⟩, ⟨⟨[1, 2, 5]⟩, 0, 3⟩)) ∧
    ((∃ v, ctor_copy (fun _ => 7) (⟨⟨[1, 2, 5]⟩, 2, 3⟩ : SimpleVector Nat) = some v ∧
      v.GetSize = (⟨⟨[1, 2, 5]⟩, 2, 3⟩ : SimpleVector Nat).live.length ∧
      v.live = (⟨⟨[1, 2, 5]⟩, 2, 3⟩ : SimpleVector Nat).live) ∧
    (∃ v src1, ctor_move (fun _ => 7) (⟨⟨[1, 2, 5]⟩, 2, 3⟩ : SimpleVector Nat) =
        some (v, src1) ∧
      v.GetSize = (⟨⟨[1, 2, 5]⟩, 2, 3⟩ : SimpleVector Nat).live.length ∧
      v.live = (⟨⟨[1, 2, 5]⟩, 2, 3⟩ : SimpleVector Nat).live) ∧
    (∃ dst1 src1, assign_copy (fun _ => 7) (⟨⟨[9]⟩, 1, 1⟩ : SimpleVector Nat)
        ⟨⟨[1, 2, 5]⟩, 2, 3⟩ false = some (dst1, src1) ∧
      dst1.GetSize = (⟨⟨[1, 2, 5]⟩, 2, 3⟩ : SimpleVector Nat).live.length ∧
      dst1.live = (⟨⟨[1, 2, 5]⟩, 2, 3⟩ : SimpleVector Nat).live ∧
      src1 = ⟨⟨[1, 2, 5]⟩, 2, 3⟩) ∧
    (∃ dst1 src1, assign_move (fun _ => 7) (⟨⟨[9]⟩, 1, 1⟩ : SimpleVector Nat)
        ⟨⟨[1, 2, 5]⟩, 2, 3⟩ false = some (dst1, src1) ∧
      dst1.GetSize = (⟨⟨[1, 2, 5]⟩, 2, 3⟩ : SimpleVector Nat).live.length ∧
      dst1.live = (⟨⟨[1, 2, 5]⟩, 2, 3⟩ : SimpleVector Nat).live) ∧
    assign_copy (fun _ => 7) (⟨⟨[1, 2, 5]⟩, 2, 3⟩ : SimpleVector Nat) ⟨⟨[1, 2, 5]⟩, 2, 3⟩ true =
      some (⟨⟨[1, 2, 5]⟩, 2, 3⟩, ⟨⟨[1, 2, 5]⟩, 2, 3⟩) ∧
    assign_move (fun _ => 7) (⟨⟨[1, 2, 5]⟩, 2, 3⟩ : SimpleVector Nat) ⟨⟨[1, 2, 5]⟩, 2, 3⟩ true =
      some (⟨⟨[1, 2, 5]⟩, 2, 3⟩, ⟨⟨[1, 2, 5]⟩, 2, 3⟩)) :=
  ⟨by decide,
   copy_and_move_transfer_live_sequence (fun _ => 7) ⟨⟨[1, 2, 5]⟩, 2, 3⟩ ⟨⟨[9]⟩, 1, 1⟩
     (by decide) (by decide)⟩

/-! ## Construction from a reservation request (C17) -/

theorem PushBack_all_within_capacity [Inhabited α] (junk : Nat → α) (xs : List α) :
    ∀ v : SimpleVector α, WellFormed v → v.size_ + xs.length ≤ v.capacity_ →
      ∃ v1, PushBack_all junk v xs = some v1 ∧ WellFormed v1 ∧
        v1.size_ = v.size_ + xs.length ∧ v1.capacity_ = v.capacity_ ∧
        v1.live = v.live ++ xs := by
  induction xs with
  | nil =>
    intro v hw _
    exact ⟨v, rfl, hw, rfl, rfl, (List.append_nil _).symm⟩
  | cons x xs ih =>
    intro v hw hle
    rw [List.length_cons] at hle
    obtain ⟨v1, y, h1, hw1, hsz1, hc1, hl1, hy⟩ :=
      PushBack_spec junk v (.object x) hw.2 hw.1 rfl
    have hyx : y = x := (Option.some.inj hy).symm
    rw [hyx] at hl1
    rw [if_pos (by omega)] at hc1
    obtain ⟨v2, h2, hw2, hsz2, hc2, hl2⟩ := ih v1 hw1 (by omega)
    refine ⟨v2, ?_, hw2, ?_, by rw [hc2, hc1], ?_⟩
    · simp only [PushBack_all, h1, h2]
    · rw [hsz2, hsz1, List.length_cons]
      omega
    · rw [hl2, hl1, List.append_assoc, List.singleton_append]

/-- C17: the container constructed from the reservation request `Reserve(r)` has
size 0, is empty and has capacity `r`, whereas `SimpleVector(r)` has size `r`;
and pushing back `k <= r` values (the list `xs`) onto it succeeds and gives size
`k` with the capacity still exactly `r`. -/
theorem ctor_reserve_gives_empty_with_capacity [Inhabited α] (junk : Nat → α) (r : Nat)
    (xs : List α) (hk : xs.length ≤ r) :
    (ctor_reserve junk (SimpleVec.Reserve r)).GetSize = 0 ∧
    (ctor_reserve junk (SimpleVec.Reserve r)).IsEmpty = true ∧
    (ctor_reserve junk (SimpleVec.Reserve r)).GetCapacity = r ∧
    (ctor_reserve junk (SimpleVec.Reserve r)).arr_ptr_.raw_ptr_.length = r ∧
    (∃ w, ctor_size junk r = some w ∧ w.GetSize = r) ∧
    ∃ v, PushBack_all junk (ctor_reserve junk (SimpleVec.Reserve r)) xs = some v ∧
      v.GetSize = xs.length ∧ v.GetCapacity = r ∧ v.live = xs := by
  have hw : WellFormed (ctor_reserve junk (SimpleVec.Reserve r)) :=
    ⟨Nat.zero_le _, length_alloc junk r⟩
  obtain ⟨v, h, _, hsz, hc, hl⟩ := PushBack_all_within_capacity junk xs
    (ctor_reserve junk (SimpleVec.Reserve r)) hw
    (by show 0 + xs.length ≤ r; omega)
  refine ⟨rfl, rfl, rfl, length_alloc junk r, ⟨_, ctor_size_eq junk r, rfl⟩, v, h, ?_, hc, ?_⟩
  · show v.size_ = xs.length
    rw [hsz]
    exact Nat.zero_add _
  · rw [hl]
    exact List.nil_append xs

/-- C17, at a concrete input: a reservation of 4 slots and three values pushed. -/
theorem ctor_reserve_gives_empty_with_capacity_witness :
    PushBack_all (fun _ => 7) (ctor_reserve (fun _ => 7) (SimpleVec.Reserve 4)) [1, 2, 3] =
      some (⟨⟨[1, 2, 3, 7]⟩, 3, 4⟩ : SimpleVector Nat) ∧
    ((ctor_reserve (fun _ => (7 : Nat)) (SimpleVec.Reserve 4)).GetSize = 0 ∧
    (ctor_reserve (fun _ => (7 : Nat)) (SimpleVec.Reserve 4)).IsEmpty = true ∧
    (ctor_reserve (fun _ => (7 : Nat)) (SimpleVec.Reserve 4)).GetCapacity = 4 ∧
    (ctor_reserve (fun _ => (7 : Nat)) (SimpleVec.Reserve 4)).arr_ptr_.raw_ptr_.length = 4 ∧
    (∃ w, ctor_size (fun _ => (7 : Nat)) 4 = some w ∧ w.GetSize = 4) ∧
    ∃ v, PushBack_all (fun _ => 7) (ctor_reserve (fun _ => 7) (SimpleVec.Reserve 4))
        [1, 2, 3] = some v ∧
      v.GetSize = [1, 2, 3].length ∧ v.GetCapacity = 4 ∧ v.live = [1, 2, 3]) :=
  ⟨by decide,
   ctor_reserve_gives_empty_with_capacity (fun _ => 7) 4 [1, 2, 3] (by decide)⟩

/-! ## Insert followed by Erase (C20) -/

theorem take_drop_insert_form (xs : List α) (i : Nat) (hi : i ≤ xs.length) (x : α) :
    (xs.take i ++ [x] ++ xs.drop i).take i ++ (xs.take i ++ [x] ++ xs.drop i).drop (i + 1) =
      xs := by
  apply List.ext_getElem?
  intro j
  have hl : (xs.take i ++ [x] ++ xs.drop i).length = xs.length + 1 := by
    simp only [List.length_append, List.length_take, List.length_drop, List.length_singleton]
    omega
  rw [getElem?_erase_form _ _ (by omega)]
  by_cases h1 : j < i
  · rw [if_pos h1, getElem?_insert_form _ _ hi, if_pos h1]
  · rw [if_neg h1, getElem?_insert_form _ _ hi, if_neg (by omega), if_neg (by omega),
      Nat.add_sub_cancel]

theorem Insert_then_Erase_restores [Inhabited α] (junk : Nat → α) (v : SimpleVector α)
    (i : Nat) (value : Ref α) (ha : Allocated v) (hs : SizeLeCapacity v) (hi : i ≤ v.size_)
    (hv : value.valid v = true) :
    (∃ v1 it v2 it2, v.Insert junk (v.begin_ + i) value = some (v1, it) ∧
      v1.Erase it = some (v2, it2) ∧
      v2.live = v.live ∧ v2.GetSize = v.GetSize) ∧
    (∃ p1 p2, v.PushBack junk value = some p1 ∧
      p1.PopBack = some p2 ∧
      p2.live = v.live ∧ p2.GetSize = v.GetSize) := by
  have hlen : v.live.length = v.size_ := live_length v hs ha
  obtain ⟨v1, y, h1, hw1, hsz1, _, hl1, _⟩ := Insert_spec junk v i value ha hs hi hv
  obtain ⟨blk, hb, _, ht⟩ := Erase_spec v1 i hw1.2 hw1.1 (by omega)
  obtain ⟨p1, z, hp1, _, hpsz, _, hpl, _⟩ := PushBack_spec junk v value ha hs hv
  have hb0 : v.begin_ + i = i := Nat.zero_add i
  refine ⟨⟨v1, i, { arr_ptr_ := ⟨blk⟩, size_ := v1.size_ - 1, capacity_ := v1.capacity_ }, i,
    by rw [hb0]; exact h1, hb, ?_, ?_⟩,
    ⟨p1, { p1 with size_ := p1.size_ - 1 }, hp1, PopBack_eq p1 (by omega), ?_, ?_⟩⟩
  · show blk.take (v1.size_ - 1) = v.live
    rw [ht, hl1]
    exact take_drop_insert_form v.live i (by omega) y
  · show v1.size_ - 1 = v.size_
    omega
  · show p1.arr_ptr_.raw_ptr_.take (p1.size_ - 1) = v.live
    have e : p1.size_ - 1 = min v.size_ p1.size_ := by omega
    have hpl1 : p1.arr_ptr_.raw_ptr_.take p1.size_ = v.live ++ [z] := hpl
    rw [e, ← List.take_take, hpl1, ← hlen, List.take_left]
  · show p1.size_ - 1 = v.size_
    omega

/-- C20: on a container with `size <= capacity`, for every index `i <= size` and
every value `x`, `Insert(begin() + i, x)` (either overload) followed by `Erase` on
the iterator it returned succeeds and gives back the live sequence and the size
the container had, whether or not the insertion reallocated; and `PushBack(x)`
followed by `PopBack()` gives back the live sequence as well.  The same holds
for the `const&` overloads called with a reference `value` to a slot of the
container's own block, whatever the inserted slot then holds. -/
theorem Erase_undoes_Insert [Inhabited α] (junk : Nat → α) (v : SimpleVector α) (i : Nat)
    (x : α) (value : Ref α) (ha : Allocated v) (hs : SizeLeCapacity v) (hi : i ≤ v.GetSize)
    (hv : value.valid v = true) :
    (∃ v1 it v2 it2, v.Insert junk (v.begin_ + i) (.object x) = some (v1, it) ∧
      v.Insert_rv junk (v.begin_ + i) (.object x) = some (v1, it) ∧
      v1.Erase it = some (v2, it2) ∧
      v2.live = v.live ∧ v2.GetSize = v.GetSize) ∧
    (∃ p1 p2, v.PushBack junk (.object x) = some p1 ∧
      v.PushBack_rv junk (.object x) = some p1 ∧
      p1.PopBack = some p2 ∧
      p2.live = v.live ∧ p2.GetSize = v.GetSize) ∧
    (∃ v1 it v2 it2, v.Insert junk (v.begin_ + i) value = some (v1, it) ∧
      v1.Erase it = some (v2, it2) ∧
      v2.live = v.live ∧ v2.GetSize = v.GetSize) ∧
    (∃ p1 p2, v.PushBack junk value = some p1 ∧
      p1.PopBack = some p2 ∧
      p2.live = v.live ∧ p2.GetSize = v.GetSize) := by
  obtain ⟨⟨v1, it, v2, it2, h1, h2, h3, h4⟩, ⟨p1, p2, h5, h6, h7, h8⟩⟩ :=
    Insert_then_Erase_restores junk v i (.object x) ha hs hi rfl
  obtain ⟨hA, hB⟩ := Insert_then_Erase_restores junk v i value ha hs hi hv
  exact ⟨⟨v1, it, v2, it2, h1, by rw [Insert_rv_eq]; exact h1, h2, h3, h4⟩,
    ⟨p1, p2, h5, by rw [PushBack_rv_eq]; exact h5, h6, h7, h8⟩, hA, hB⟩

/-- C20, at a concrete input: inserting 9, and then `v[2]`, at index 1 of
`[1, 2, 3]`, then erasing at the returned iterator. -/
theorem Erase_undoes_Insert_witness :
    ((⟨⟨[1, 2, 3]⟩, 3, 3⟩ : SimpleVector Nat).Insert (fun _ => 7) 1 (.object 9) =
        some (⟨⟨[1, 9, 2, 3, 0, 0]⟩, 4, 6⟩, 1) ∧
     (⟨⟨[1, 9, 2, 3, 0, 0]⟩, 4, 6⟩ : SimpleVector Nat).Erase 1 =
        some (⟨⟨[1, 2, 3, 3, 0, 0]⟩, 3, 6⟩, 1)) ∧
    ((∃ v1 it v2 it2, (⟨⟨[1, 2, 3]⟩, 3, 3⟩ : SimpleVector Nat).Insert (fun _ => 7)
        ((⟨⟨[1, 2, 3]⟩, 3, 3⟩ : SimpleVector Nat).begin_ + 1) (.object 9) = some (v1, it) ∧
      (⟨⟨[1, 2, 3]⟩, 3, 3⟩ : SimpleVector Nat).Insert_rv (fun _ => 7)
        ((⟨⟨[1, 2, 3]⟩, 3, 3⟩ : SimpleVector Nat).begin_ + 1) (.object 9) = some (v1, it) ∧
      v1.Erase it = some (v2, it2) ∧
      v2.live = (⟨⟨[1, 2, 3]⟩, 3, 3⟩ : SimpleVector Nat).live ∧
      v2.GetSize = (⟨⟨[1, 2, 3]⟩, 3, 3⟩ : SimpleVector Nat).GetSize) ∧
    (∃ p1 p2, (⟨⟨[1, 2, 3]⟩, 3, 3⟩ : SimpleVector Nat).PushBack (fun _ => 7) (.object 9) =
        some p1 ∧
      (⟨⟨[1, 2, 3]⟩, 3, 3⟩ : SimpleVector Nat).PushBack_rv (fun _ => 7) (.object 9) =
        some p1 ∧
      p1.PopBack = some p2 ∧
      p2.live = (⟨⟨[1, 2, 3]⟩, 3, 3⟩ : SimpleVector Nat).live ∧
      p2.GetSize = (⟨⟨[1, 2, 3]⟩, 3, 3⟩ : SimpleVector Nat).GetSize) ∧
    (∃ v1 it v2 it2, (⟨⟨[1, 2, 3]⟩, 3, 3⟩ : SimpleVector Nat).Insert (fun _ => 7)
        ((⟨⟨[1, 2, 3]⟩, 3, 3⟩ : SimpleVector Nat).begin_ + 1) (.slot 2) = some (v1, it) ∧
      v1.Erase it = some (v2, it2) ∧
      v2.live = (⟨⟨[1, 2, 3]⟩, 3, 3⟩ : SimpleVector Nat).live ∧
      v2.GetSize = (⟨⟨[1, 2, 3]⟩, 3, 3⟩ : SimpleVector Nat).GetSize) ∧
    (∃ p1 p2, (⟨⟨[1, 2, 3]⟩, 3, 3⟩ : SimpleVector Nat).PushBack (fun _ => 7) (.slot 2) =
        some p1 ∧
      p1.PopBack = some p2 ∧
      p2.live = (⟨⟨[1, 2, 3]⟩, 3, 3⟩ : SimpleVector Nat).live ∧
      p2.GetSize = (⟨⟨[1, 2, 3]⟩, 3, 3⟩ : SimpleVector Nat).GetSize)) :=
  ⟨by decide,
   Erase_undoes_Insert (fun _ => 7) ⟨⟨[1, 2, 3]⟩, 3, 3⟩ 1 9 (.slot 2) (by decide) (by decide)
     (by decide) (by decide)⟩

/-! ## Equality of containers of one size (C19) -/

theorem equal_loop_spec [DecidableEq α] :
    ∀ (n : Nat) (blk1 : List α) (f1 : Nat) (blk2 : List α) (f2 : Nat),
      f1 + n ≤ blk1.length → f2 + n ≤ blk2.length →
      ∃ r, equal_loop n blk1 f1 blk2 f2 = some r ∧
        (r = true ↔ ∀ j, j < n → blk1[f1 + j]? = blk2[f2 + j]?) := by
  intro n
  induction n with
  | zero =>
    intro blk1 f1 blk2 f2 _ _
    exact ⟨true, rfl, fun _ j hj => absurd hj (Nat.not_lt_zero j), fun _ => rfl⟩
  | succ n ih =>
    intro blk1 f1 blk2 f2 h1 h2
    have hl1 : f1 < blk1.length := by omega
    have hl2 : f2 < blk2.length := by omega
    by_cases hxy : blk1[f1] = blk2[f2]
    · obtain ⟨r, hr, hiff⟩ := ih blk1 (f1 + 1) blk2 (f2 + 1) (by omega) (by omega)
      refine ⟨r, ?_, ?_⟩
      · simp only [equal_loop, List.getElem?_eq_getElem hl1, List.getElem?_eq_getElem hl2, hxy,
          if_true, hr]
      · rw [hiff]
        constructor
        · intro h j hj
          cases j with
          | zero =>
            rw [Nat.add_zero, Nat.add_zero, List.getElem?_eq_getElem hl1,
              List.getElem?_eq_getElem hl2, hxy]
          | succ j =>
            have := h j (by omega)
            rw [Nat.add_assoc, Nat.add_assoc, Nat.add_comm 1 j] at this
            exact this
        · intro h j hj
          have := h (j + 1) (by omega)
          rw [Nat.add_assoc, Nat.add_assoc, Nat.add_comm 1 j]
          exact this
    · refine ⟨false, ?_, ?_⟩
      · simp only [equal_loop, List.getElem?_eq_getElem hl1, List.getElem?_eq_getElem hl2, hxy,
          if_false]
      · constructor
        · intro h
          cases h
        · intro h
          have := h 0 (by omega)
          rw [Nat.add_zero, Nat.add_zero, List.getElem?_eq_getElem hl1,
            List.getElem?_eq_getElem hl2] at this
          exact absurd (Option.some.inj this) hxy

theorem operator_eq_spec [DecidableEq α] (a b : SimpleVector α) (ha : Allocated a)
    (hs : SizeLeCapacity a) (hb : Allocated b) (hsb : SizeLeCapacity b)
    (hsz : a.size_ = b.size_) :
    ∃ r, operator_eq a b = some r ∧
      (r = true ↔ ∀ i, i < a.size_ → a.operator_index i = b.operator_index i) := by
  have ha1 : a.arr_ptr_.raw_ptr_.length = a.capacity_ := ha
  have hb1 : b.arr_ptr_.raw_ptr_.length = b.capacity_ := hb
  have hs1 : a.size_ ≤ a.capacity_ := hs
  have hsb1 : b.size_ ≤ b.capacity_ := hsb
  obtain ⟨r, hr, hiff⟩ := equal_loop_spec a.size_ a.arr_ptr_.raw_ptr_ 0 b.arr_ptr_.raw_ptr_ 0
    (by omega) (by omega)
  refine ⟨r, ?_, ?_⟩
  · simp only [operator_eq, std_equal, begin_, end_, Nat.zero_add, Nat.zero_le, if_true,
      Nat.sub_zero, hr]
  · rw [hiff]
    constructor
    · intro h i hi
      have := h i hi
      rw [Nat.zero_add] at this
      rw [operator_index_of_lt a i hi, operator_index_of_lt b i (by omega)]
      exact this
    · intro h j hj
      have := h j hj
      rw [operator_index_of_lt a j hj, operator_index_of_lt b j (by omega)] at this
      rw [Nat.zero_add]
      exact this

theorem live_eq_iff_operator_index (a b : SimpleVector α) (hsz : a.size_ = b.size_) :
    a.live = b.live ↔ ∀ i, i < a.size_ → a.operator_index i = b.operator_index i := by
  constructor
  · intro h i _
    rw [operator_index_eq_live, operator_index_eq_live, h]
  · intro h
    apply List.ext_getElem?
    intro j
    by_cases hj : j < a.size_
    · rw [← operator_index_eq_live, ← operator_index_eq_live]
      exact h j hj
    · rw [live_getElem?, live_getElem?, if_neg hj, if_neg (by omega)]

theorem operator_index_assign_spec (b : SimpleVector α) (i : Nat) (y : α)
    (hb : Allocated b) (hsb : SizeLeCapacity b) (hi : i < b.size_) :
    ∃ b1, b.operator_index_assign i y = some b1 ∧ Allocated b1 ∧ SizeLeCapacity b1 ∧
      b1.size_ = b.size_ ∧ b1.operator_index i = some y := by
  have hb1 : b.arr_ptr_.raw_ptr_.length = b.capacity_ := hb
  have hsb1 : b.size_ ≤ b.capacity_ := hsb
  have hlt : i < b.arr_ptr_.raw_ptr_.length := by omega
  refine ⟨{ b with arr_ptr_ := ⟨b.arr_ptr_.raw_ptr_.set i y⟩ }, ?_, ?_, hsb, rfl, ?_⟩
  · simp only [operator_index_assign, hi, if_true, store_eq_some hlt]
  · show (b.arr_ptr_.raw_ptr_.set i y).length = b.capacity_
    rw [List.length_set, hb1]
  · rw [operator_index_mk _ _ _ i hi, List.getElem?_set, if_pos rfl, if_pos hlt]

/-- C19: for two containers with `size <= capacity` and the same size,
`operator==` returns, and returns `true` exactly when `a[i]` equals `b[i]` for
every `i < size`, that is exactly when the live sequences are equal, whatever the
capacities and whatever lies beyond the size; `operator!=` returns the negation;
and when the live sequences are equal, assigning to one live element of either
operand a value other than the one it holds makes `operator==` return `false`. -/
theorem operator_eq_compares_elements_of_equal_sizes [DecidableEq α] (a b : SimpleVector α)
    (ha : Allocated a) (hs : SizeLeCapacity a) (hb : Allocated b) (hsb : SizeLeCapacity b)
    (hsz : a.GetSize = b.GetSize) :
    ∃ r, operator_eq a b = some r ∧ operator_ne a b = some (!r) ∧
      (r = true ↔ ∀ i, i < a.GetSize → a.operator_index i = b.operator_index i) ∧
      (r = true ↔ a.live = b.live) ∧
      (∀ i y, i < b.GetSize → a.live = b.live → b.operator_index i ≠ some y →
        ∃ b1, b.operator_index_assign i y = some b1 ∧ operator_eq a b1 = some false) ∧
      (∀ i y, i < a.GetSize → a.live = b.live → a.operator_index i ≠ some y →
        ∃ a1, a.operator_index_assign i y = some a1 ∧ operator_eq a1 b = some false) := by
  have hsz1 : a.size_ = b.size_ := hsz
  obtain ⟨r, hr, hiff⟩ := operator_eq_spec a b ha hs hb hsb hsz1
  refine ⟨r, hr, ?_, hiff, ?_, ?_, ?_⟩
  · simp only [operator_ne, hr, Option.map_some']
  · rw [hiff]
    exact (live_eq_iff_operator_index a b hsz1).symm
  · intro i y hi hlive hne
    have hi1 : i < b.size_ := hi
    obtain ⟨b1, h1, hb1, hsb1, hsz2, hy⟩ := operator_index_assign_spec b i y hb hsb hi1
    obtain ⟨r1, hr1, hiff1⟩ := operator_eq_spec a b1 ha hs hb1 hsb1 (by omega)
    refine ⟨b1, h1, ?_⟩
    cases r1 with
    | false => exact hr1
    | true =>
      have h2 := hiff1.mp rfl i (by omega)
      have h3 := (live_eq_iff_operator_index a b hsz1).mp hlive i (by omega)
      rw [hy] at h2
      rw [h2] at h3
      exact absurd h3.symm hne
  · intro i y hi hlive hne
    have hi1 : i < a.size_ := hi
    obtain ⟨a1, h1, ha1, hsa1, hsz2, hy⟩ := operator_index_assign_spec a i y ha hs hi1
    obtain ⟨r1, hr1, hiff1⟩ := operator_eq_spec a1 b ha1 hsa1 hb hsb (by omega)
    refine ⟨a1, h1, ?_⟩
    cases r1 with
    | false => exact hr1
    | true =>
      have h2 := hiff1.mp rfl i (by omega)
      have h3 := (live_eq_iff_operator_index a b hsz1).mp hlive i hi1
      rw [hy] at h2
      rw [← h2] at h3
      exact absurd h3 hne

/-- C19, at a concrete input: `[1, 2]` in blocks of capacity 2 and 4, the second
with stale values behind the live elements. -/
theorem operator_eq_compares_elements_of_equal_sizes_witness :
    (operator_eq (⟨⟨[1, 2]⟩, 2, 2⟩ : SimpleVector Nat) ⟨⟨[1, 2, 8, 9]⟩, 2, 4⟩ = some true ∧
     operator_eq (⟨⟨[1, 2]⟩, 2, 2⟩ : SimpleVector Nat) ⟨⟨[1, 5, 8, 9]⟩, 2, 4⟩ = some false) ∧
    ∃ r, operator_eq (⟨⟨[1, 2]⟩, 2, 2⟩ : SimpleVector Nat) ⟨⟨[1, 2, 8, 9]⟩, 2, 4⟩ = some r ∧
      operator_ne (⟨⟨[1, 2]⟩, 2, 2⟩ : SimpleVector Nat) ⟨⟨[1, 2, 8, 9]⟩, 2, 4⟩ = some (!r) ∧
      (r = true ↔ ∀ i, i < (⟨⟨[1, 2]⟩, 2, 2⟩ : SimpleVector Nat).GetSize →
        (⟨⟨[1, 2]⟩, 2, 2⟩ : SimpleVector Nat).operator_index i =
          (⟨⟨[1, 2, 8, 9]⟩, 2, 4⟩ : SimpleVector Nat).operator_index i) ∧
      (r = true ↔ (⟨⟨[1, 2]⟩, 2, 2⟩ : SimpleVector Nat).live =
        (⟨⟨[1, 2, 8, 9]⟩, 2, 4⟩ : SimpleVector Nat).live) ∧
      (∀ i y, i < (⟨⟨[1, 2, 8, 9]⟩, 2, 4⟩ : SimpleVector Nat).GetSize →
        (⟨⟨[1, 2]⟩, 2, 2⟩ : SimpleVector Nat).live =
          (⟨⟨[1, 2, 8, 9]⟩, 2, 4⟩ : SimpleVector Nat).live →
        (⟨⟨[1, 2, 8, 9]⟩, 2, 4⟩ : SimpleVector Nat).operator_index i ≠ some y →
        ∃ b1, (⟨⟨[1, 2, 8, 9]⟩, 2, 4⟩ : SimpleVector Nat).operator_index_assign i y = some b1 ∧
          operator_eq (⟨⟨[1, 2]⟩, 2, 2⟩ : SimpleVector Nat) b1 = some false) ∧
      (∀ i y, i < (⟨⟨[1, 2]⟩, 2, 2⟩ : SimpleVector Nat).GetSize →
        (⟨⟨[1, 2]⟩, 2, 2⟩ : SimpleVector Nat).live =
          (⟨⟨[1, 2, 8, 9]⟩, 2, 4⟩ : SimpleVector Nat).live →
        (⟨⟨[1, 2]⟩, 2, 2⟩ : SimpleVector Nat).operator_index i ≠ some y →
        ∃ a1, (⟨⟨[1, 2]⟩, 2, 2⟩ : SimpleVector Nat).operator_index_assign i y = some a1 ∧
          operator_eq a1 (⟨⟨[1, 2, 8, 9]⟩, 2, 4⟩ : SimpleVector Nat) = some false) :=
  ⟨by decide,
   operator_eq_compares_elements_of_equal_sizes ⟨⟨[1, 2]⟩, 2, 2⟩ ⟨⟨[1, 2, 8, 9]⟩, 2, 4⟩
     (by decide) (by decide) (by decide) (by decide) (by decide)⟩

/-! ## The ordering operators (C12) -/

theorem LexLess_nil_left [LT α] (ys : List α) : LexLess [] ys ↔ ys ≠ [] := by
  constructor
  · rintro ⟨k, _, h⟩
    rcases h with ⟨hk, hlt⟩ | ⟨x, y, hx, _, _⟩
    · intro hnil
      rw [hnil] at hlt
      exact Nat.not_lt_zero k hlt
    · rw [List.getElem?_nil] at hx
      cases hx
  · intro h
    refine ⟨0, rfl, Or.inl ⟨rfl, ?_⟩⟩
    exact List.length_pos.mpr h

theorem LexLess_nil_right [LT α] (xs : List α) : ¬ LexLess xs [] := by
  rintro ⟨k, _, h⟩
  rcases h with ⟨_, hlt⟩ | ⟨x, y, _, hy, _⟩
  · exact Nat.not_lt_zero k hlt
  · rw [List.getElem?_nil] at hy
    cases hy

theorem LexLess_cons [LT α] (x y : α) (xs ys : List α) :
    LexLess (x :: xs) (y :: ys) ↔ x < y ∨ (x = y ∧ LexLess xs ys) := by
  constructor
  · rintro ⟨k, htake, h⟩
    cases k with
    | zero =>
      rcases h with ⟨hk, _⟩ | ⟨x1, y1, hx, hy, hlt⟩
      · rw [List.length_cons] at hk
        omega
      · rw [List.getElem?_cons_zero] at hx hy
        cases hx
        cases hy
        exact Or.inl hlt
    | succ k =>
      rw [List.take_succ_cons, List.take_succ_cons] at htake
      have hxy : x = y := (List.cons.inj htake).1
      have ht : xs.take k = ys.take k := (List.cons.inj htake).2
      refine Or.inr ⟨hxy, k, ht, ?_⟩
      rcases h with ⟨hk, hlt⟩ | ⟨x1, y1, hx, hy, hlt⟩
      · rw [List.length_cons] at hk hlt
        exact Or.inl ⟨by omega, by omega⟩
      · rw [List.getElem?_cons_succ] at hx hy
        exact Or.inr ⟨x1, y1, hx, hy, hlt⟩
  · rintro (hlt | ⟨hxy, k, ht, h⟩)
    · exact ⟨0, rfl,
        Or.inr ⟨x, y, List.getElem?_cons_zero, List.getElem?_cons_zero, hlt⟩⟩
    · refine ⟨k + 1, ?_, ?_⟩
      · rw [List.take_succ_cons, List.take_succ_cons, hxy, ht]
      · rcases h with ⟨hk, hlt⟩ | ⟨x1, y1, hx, hy, hlt⟩
        · refine Or.inl ⟨?_, ?_⟩
          · rw [List.length_cons, hk]
          · rw [List.length_cons]
            omega
        · refine Or.inr ⟨x1, y1, ?_, ?_, hlt⟩
          · rw [List.getElem?_cons_succ]
            exact hx
          · rw [List.getElem?_cons_succ]
            exact hy

theorem LexLess_total [LinearOrder α] :
    ∀ xs ys : List α, ¬ LexLess ys xs ↔ (LexLess xs ys ∨ xs = ys) := by
  intro xs
  induction xs with
  | nil =>
    intro ys
    cases ys with
    | nil =>
      exact ⟨fun _ => Or.inr rfl, fun _ => LexLess_nil_right []⟩
    | cons y ys =>
      constructor
      · intro _
        exact Or.inl ((LexLess_nil_left (y :: ys)).mpr (List.cons_ne_nil y ys))
      · intro _
        exact LexLess_nil_right (y :: ys)
  | cons x xs ih =>
    intro ys
    cases ys with
    | nil =>
      constructor
      · intro h
        exact absurd ((LexLess_nil_left (x :: xs)).mpr (List.cons_ne_nil x xs)) h
      · rintro (h | h)
        · exact absurd h (LexLess_nil_right (x :: xs))
        · exact absurd h (List.cons_ne_nil x xs)
    | cons y ys =>
      rw [LexLess_cons, LexLess_cons]
      rcases lt_trichotomy x y with hlt | heq | hgt
      · constructor
        · intro _
          exact Or.inl (Or.inl hlt)
        · rintro _ (h | ⟨h, _⟩)
          · exact lt_asymm hlt h
          · rw [h] at hlt
            exact lt_irrefl x hlt
      · subst heq
        constructor
        · intro h
          have h1 : ¬ LexLess ys xs := fun hl => h (Or.inr ⟨rfl, hl⟩)
          rcases (ih ys).mp h1 with h2 | h2
          · exact Or.inl (Or.inr ⟨rfl, h2⟩)
          · exact Or.inr (by rw [h2])
        · rintro h (h3 | ⟨_, h3⟩)
          · exact lt_irrefl x h3
          · have h1 : LexLess xs ys ∨ xs = ys := by
              rcases h with (h | ⟨_, h⟩) | h
              · exact absurd h (lt_irrefl x)
              · exact Or.inl h
              · exact Or.inr (List.cons.inj h).2
            exact (ih ys).mpr h1 h3
      · constructor
        · intro h
          exact absurd (Or.inl hgt) h
        · rintro ((h | ⟨h, _⟩) | h) _
          · exact lt_asymm hgt h
          · rw [h] at hgt
            exact lt_irrefl y hgt
          · rw [(List.cons.inj h).1] at hgt
            exact lt_irrefl y hgt

theorem drop_take_succ (blk : List α) (f n : Nat) (h : f < blk.length) :
    (blk.drop f).take (n + 1) = blk[f] :: (blk.drop (f + 1)).take n := by
  rw [List.drop_eq_getElem_cons h, List.take_succ_cons]

theorem lexicographical_compare_loop_spec [LinearOrder α] :
    ∀ (n1 n2 : Nat) (blk1 : List α) (f1 : Nat) (blk2 : List α) (f2 : Nat),
      f1 + n1 ≤ blk1.length → f2 + n2 ≤ blk2.length →
      ∃ r, lexicographical_compare_loop n1 n2 blk1 f1 blk2 f2 = some r ∧
        (r = true ↔ LexLess ((blk1.drop f1).take n1) ((blk2.drop f2).take n2)) := by
  intro n1
  induction n1 with
  | zero =>
    intro n2 blk1 f1 blk2 f2 _ h2
    refine ⟨decide (n2 ≠ 0), rfl, ?_⟩
    rw [List.take_zero, LexLess_nil_left, decide_eq_true_iff]
    constructor
    · intro hn hnil
      have hlen : ((blk2.drop f2).take n2).length = n2 := by
        rw [List.length_take, List.length_drop]
        omega
      rw [hnil] at hlen
      exact hn hlen.symm
    · intro hne hn
      rw [hn, List.take_zero] at hne
      exact hne rfl
  | succ n1 ih =>
    intro n2 blk1 f1 blk2 f2 h1 h2
    cases n2 with
    | zero =>
      refine ⟨false, rfl, ?_⟩
      rw [List.take_zero]
      exact ⟨fun h => Bool.noConfusion h, fun h => absurd h (LexLess_nil_right _)⟩
    | succ n2 =>
      have hl1 : f1 < blk1.length := by omega
      have hl2 : f2 < blk2.length := by omega
      rw [drop_take_succ blk1 f1 n1 hl1, drop_take_succ blk2 f2 n2 hl2, LexLess_cons]
      by_cases hlt : blk1[f1] < blk2[f2]
      · refine ⟨true, ?_, fun _ => Or.inl hlt, fun _ => rfl⟩
        simp only [lexicographical_compare_loop, List.getElem?_eq_getElem hl1,
          List.getElem?_eq_getElem hl2, hlt, if_true]
      · by_cases hgt : blk2[f2] < blk1[f1]
        · refine ⟨false, ?_, fun h => Bool.noConfusion h, ?_⟩
          · simp only [lexicographical_compare_loop, List.getElem?_eq_getElem hl1,
              List.getElem?_eq_getElem hl2, hlt, hgt, if_true, if_false]
          · rintro (h | ⟨h, _⟩)
            · exact absurd h hlt
            · rw [h] at hgt
              exact absurd hgt (lt_irrefl _)
        · obtain ⟨r, hr, hiff⟩ := ih n2 blk1 (f1 + 1) blk2 (f2 + 1) (by omega) (by omega)
          have heq : blk1[f1] = blk2[f2] :=
            le_antisymm (not_lt.mp hgt) (not_lt.mp hlt)
          refine ⟨r, ?_, ?_⟩
          · simp only [lexicographical_compare_loop, List.getElem?_eq_getElem hl1,
              List.getElem?_eq_getElem hl2, hlt, hgt, if_false, hr]
          · rw [hiff]
            constructor
            · intro h
              exact Or.inr ⟨heq, h⟩
            · rintro (h | ⟨_, h⟩)
              · exact absurd h hlt
              · exact h

theorem operator_lt_spec [LinearOrder α] (a b : SimpleVector α) (ha : Allocated a)
    (hs : SizeLeCapacity a) (hb : Allocated b) (hsb : SizeLeCapacity b) :
    ∃ r, operator_lt a b = some r ∧ (r = true ↔ LexLess a.live b.live) := by
  have ha1 : a.arr_ptr_.raw_ptr_.length = a.capacity_ := ha
  have hb1 : b.arr_ptr_.raw_ptr_.length = b.capacity_ := hb
  have hs1 : a.size_ ≤ a.capacity_ := hs
  have hsb1 : b.size_ ≤ b.capacity_ := hsb
  obtain ⟨r, hr, hiff⟩ := lexicographical_compare_loop_spec a.size_ b.size_
    a.arr_ptr_.raw_ptr_ 0 b.arr_ptr_.raw_ptr_ 0 (by omega) (by omega)
  refine ⟨r, ?_, hiff⟩
  simp only [operator_lt, std_lexicographical_compare, begin_, end_, Nat.zero_add, Nat.zero_le,
    and_self, if_true, Nat.sub_zero, hr]

/-- C12: for two containers with `size <= capacity` over a linearly ordered
element type, the four ordering operators return, and `a < b` is `true` exactly
when the live sequence of `a` is lexicographically less than that of `b`,
`a > b` is the value of `b < a`, `a <= b` is `true` exactly when `a < b` is or
the live sequences are equal, and `a >= b` is the value of `b <= a`. -/
theorem ordering_operators_are_lexicographic [LinearOrder α] (a b : SimpleVector α)
    (ha : Allocated a) (hs : SizeLeCapacity a) (hb : Allocated b) (hsb : SizeLeCapacity b) :
    ∃ lt gt le ge, operator_lt a b = some lt ∧ operator_gt a b = some gt ∧
      operator_le a b = some le ∧ operator_ge a b = some ge ∧
      (lt = true ↔ LexLess a.live b.live) ∧
      operator_lt b a = some gt ∧
      (le = true ↔ (lt = true ∨ a.live = b.live)) ∧
      operator_le b a = some ge := by
  obtain ⟨lt, hlt, hiff⟩ := operator_lt_spec a b ha hs hb hsb
  obtain ⟨gt, hgt, hiff2⟩ := operator_lt_spec b a hb hsb ha hs
  refine ⟨lt, gt, !gt, !lt, hlt, hgt, ?_, ?_, hiff, hgt, ?_, ?_⟩
  · simp only [operator_le, operator_gt, hgt, Option.map_some']
  · simp only [operator_ge, hlt, Option.map_some']
  · rw [hiff, ← LexLess_total, ← hiff2]
    cases gt <;> simp
  · simp only [operator_le, operator_gt, hlt, Option.map_some']

/-- C12, at a concrete input: `[1, 2]` and `[1, 2, 3]`, a proper prefix. -/
theorem ordering_operators_are_lexicographic_witness :
    (operator_lt (⟨⟨[1, 2]⟩, 2, 2⟩ : SimpleVector Nat) ⟨⟨[1, 2, 3]⟩, 3, 3⟩ = some true ∧
     operator_gt (⟨⟨[1, 2]⟩, 2, 2⟩ : SimpleVector Nat) ⟨⟨[1, 2, 3]⟩, 3, 3⟩ = some false ∧
     operator_le (⟨⟨[1, 2]⟩, 2, 2⟩ : SimpleVector Nat) ⟨⟨[1, 2, 3]⟩, 3, 3⟩ = some true ∧
     operator_ge (⟨⟨[1, 2]⟩, 2, 2⟩ : SimpleVector Nat) ⟨⟨[1, 2, 3]⟩, 3, 3⟩ = some false) ∧
    ∃ lt gt le ge,
      operator_lt (⟨⟨[1, 2]⟩, 2, 2⟩ : SimpleVector Nat) ⟨⟨[1, 2, 3]⟩, 3, 3⟩ = some lt ∧
      operator_gt (⟨⟨[1, 2]⟩, 2, 2⟩ : SimpleVector Nat) ⟨⟨[1, 2, 3]⟩, 3, 3⟩ = some gt ∧
      operator_le (⟨⟨[1, 2]⟩, 2, 2⟩ : SimpleVector Nat) ⟨⟨[1, 2, 3]⟩, 3, 3⟩ = some le ∧
      operator_ge (⟨⟨[1, 2]⟩, 2, 2⟩ : SimpleVector Nat) ⟨⟨[1, 2, 3]⟩, 3, 3⟩ = some ge ∧
      (lt = true ↔ LexLess (⟨⟨[1, 2]⟩, 2, 2⟩ : SimpleVector Nat).live
        (⟨⟨[1, 2, 3]⟩, 3, 3⟩ : SimpleVector Nat).live) ∧
      operator_lt (⟨⟨[1, 2, 3]⟩, 3, 3⟩ : SimpleVector Nat) ⟨⟨[1, 2]⟩, 2, 2⟩ = some gt ∧
      (le = true ↔ (lt = true ∨ (⟨⟨[1, 2]⟩, 2, 2⟩ : SimpleVector Nat).live =
        (⟨⟨[1, 2, 3]⟩, 3, 3⟩ : SimpleVector Nat).live)) ∧
      operator_le (⟨⟨[1, 2, 3]⟩, 3, 3⟩ : SimpleVector Nat) ⟨⟨[1, 2]⟩, 2, 2⟩ = some ge :=
  ⟨by decide,
   ordering_operators_are_lexicographic ⟨⟨[1, 2]⟩, 2, 2⟩ ⟨⟨[1, 2, 3]⟩, 3, 3⟩ (by decide)
     (by decide) (by decide) (by decide)⟩

end SimpleVector

end SimpleVec
